import Mathlib

/-!
Verification development for the nlnog-ring-exporter fleet session core.

The Python source is shallowly embedded:
* module-level mutable maps become explicit state arguments (association
  lists for dicts, duplicate-free lists for sets);
* every subprocess invocation (ssh spawn, ssh -O check, socket probe) is
  abstracted by an oracle argument giving its observable outcome;
* `random.sample` / `random.shuffle` are abstracted by oracle arguments
  constrained (in theorem hypotheses) to behave as sampling without
  replacement, respectively as a permutation;
* fallible code returns `Except Unit`.
-/

namespace NRE

/-- HealthState labels kept in `NodeManager.session_health`
(src/core/node_manager.py). -/
inductive Health where
  | healthy
  | restarted
  | error
deriving DecidableEq, Repr

/-- Association-list model of a Python dict from hostname to HealthState. -/
abbrev HealthMap := List (String × Health)

/-- Lookup in the health map: models `dict.get` (first binding wins; the
update operation keeps keys unique). -/
def lookup_map : HealthMap → String → Option Health
  | [], _ => none
  | (k, v) :: rest, h => if k = h then some v else lookup_map rest h

/-- Model of `self.session_health[hostname] = value`: replace the binding
if the key is present, append it otherwise. -/
def upd_map : HealthMap → String → Health → HealthMap
  | [], k, v => [(k, v)]
  | (k', v') :: rest, k, v =>
      if k' = k then (k, v) :: rest else (k', v') :: upd_map rest k v

/-- Model of `set.add`: Python sets are modelled as duplicate-free lists of
hostnames. -/
def add_session (s : List String) (h : String) : List String :=
  if h ∈ s then s else h :: s

/-- Result of one `SSHSessionManager.start_session` call
(src/core/session_manager.py lines 30-63).  `during` is the value of
`active_sessions` while the ssh subprocess runs (the optimistic insert);
`final` is the value after the call returns. -/
structure StartResult where
  final : List String
  ok : Bool
  spawned : Bool
  during : List String
deriving DecidableEq, Repr

/-- Model of `start_session`.  `spawnOk` is the oracle for the ssh master
spawn: `true` means the subprocess exits zero, `false` covers a non-zero
exit as well as a raised exception (both take the discard-and-return-False
path in the source). -/
def start_session_run (s : List String) (h : String) (spawnOk : Bool) : StartResult :=
  if h ∈ s then
    { final := s, ok := true, spawned := false, during := s }
  else
    let optimistic := add_session s h
    if spawnOk then
      { final := optimistic, ok := true, spawned := true, during := optimistic }
    else
      { final := optimistic.erase h, ok := false, spawned := true, during := optimistic }

/-- Projection of `start_session` onto (new active set, return value). -/
def start_session (s : List String) (h : String) (spawnOk : Bool) : List String × Bool :=
  let r := start_session_run s h spawnOk
  (r.final, r.ok)

/-- Model of `stop_session` (src/core/session_manager.py lines 65-85): if
absent, no-op; otherwise remove from the set (the `ssh -O exit` subprocess
has no effect on the modelled state; its failures are logged only). -/
def stop_session (s : List String) (h : String) : List String :=
  if h ∈ s then s.erase h else s

/-- Model of `NodeManager.check_and_manage_ssh_session`
(src/core/node_manager.py lines 185-209).  Oracles: `spawn1` is the
outcome of the spawn inside the initial `start_session` (unused if the
host is already present), `checkOk` is the exit status of the
`ssh -O check` subprocess, `spawn2` is the outcome of the spawn inside
the restart `start_session`. -/
def check_and_manage_ssh_session (active : List String) (health : HealthMap)
    (h : String) (spawn1 checkOk spawn2 : Bool) : List String × HealthMap :=
  let a1 := (start_session active h spawn1).1
  if checkOk then
    (a1, upd_map health h Health.healthy)
  else
    let a2 := stop_session a1 h
    let a3 := (start_session a2 h spawn2).1
    (a3, upd_map health h Health.restarted)

/-- Spec invariant (spec.md section 3 and section 8): every hostname whose
HealthState is healthy or restarted has SessionState present. -/
def health_session_invariant (active : List String) (health : HealthMap) : Prop :=
  ∀ p ∈ health, (p.2 = Health.healthy ∨ p.2 = Health.restarted) → p.1 ∈ active

instance (active : List String) (health : HealthMap) :
    Decidable (health_session_invariant active health) := by
  unfold health_session_invariant; infer_instance

/-- Node record in the internal format produced by `filter_api_nodes`.
Python nodes are dicts; the five filterable fields are `Option String` so
that a missing key or a JSON `null` value (both observed through
`dict.get` as `None`) are representable.  `hostname` is always present. -/
structure Node where
  hostname : String
  asn : Option String
  city : Option String
  countrycode : Option String
  continent : Option String
  company : Option String
deriving DecidableEq, Repr

/-- The keys of `NODE_FILTER_FIELDS` (src/core/node_manager.py lines
23-30). -/
inductive FilterField where
  | node
  | asn
  | city
  | countrycode
  | continent
  | company
deriving DecidableEq, Repr

/-- Model of `node.get(NODE_FILTER_FIELDS[field])` for a non-`node` field:
the raw dict value, `none` for a missing key or a `None` value. -/
def node_get (n : Node) : FilterField → Option String
  | .node => none
  | .asn => n.asn
  | .city => n.city
  | .countrycode => n.countrycode
  | .continent => n.continent
  | .company => n.company

/-- Model of Python `str.split(sep)` for a one-character separator, on
character lists. -/
def split_on_char (sep : Char) : List Char → List (List Char)
  | [] => [[]]
  | c :: rest =>
      if c = sep then [] :: split_on_char sep rest
      else
        match split_on_char sep rest with
        | [] => [[c]]
        | g :: gs => (c :: g) :: gs

/-- String-level wrapper for `str.split(sep)`. -/
def py_split_char (s : String) (sep : Char) : List String :=
  (split_on_char sep s.toList).map (fun l => String.mk l)

/-- Model of `str.lower` (ASCII case mapping, like `py_upper`). -/
def py_lower (s : String) : String := String.mk (s.toList.map Char.toLower)

/-- Model of `_node_field_value` (src/core/node_manager.py lines 33-37).
`node.get(key) or ""` on a string-or-None value equals `getD ""` (an empty
string maps to itself). -/
def node_field_value (n : Node) (f : FilterField) : String :=
  match f with
  | .node => ((py_split_char n.hostname '.').headD "")
  | _ => (node_get n f).getD ""

/-- Filters as passed to `fetch_healthy_nodes`: a dict from filter field
to a set of (already lower-cased, in the route) allowed values.  The
value sets are modelled as lists; only membership and cardinality > 1 are
ever used. -/
abbrev Filters := List (FilterField × List String)

/-- A node passes the supplied filters iff for every named filter its
lower-cased field value is in the allowed set
(src/core/node_manager.py lines 257-259). -/
def passes_filters (filters : Filters) (n : Node) : Bool :=
  filters.all (fun fv => decide (py_lower (node_field_value n fv.1) ∈ fv.2))

/-- Sequential re-filtering loop of `fetch_healthy_nodes`:
`for field, allowed_values in filters.items(): healthy = [...]`. -/
def apply_filters (filters : Filters) (l : List Node) : List Node :=
  filters.foldl
    (fun acc fv => acc.filter (fun n => decide (py_lower (node_field_value n fv.1) ∈ fv.2)))
    l

/-- Filter fields whose allowed-value set has more than one element
(src/core/node_manager.py line 49). -/
def balance_fields (filters : Filters) : List FilterField :=
  (filters.filter (fun fv => 1 < fv.2.length)).map Prod.fst

/-- Grouping key of a node: the tuple of lower-cased balance-field values
(src/core/node_manager.py line 57). -/
def bucket_key (bf : List FilterField) (n : Node) : List String :=
  bf.map (fun f => py_lower (node_field_value n f))

/-- Association list of buckets, in dict insertion order. -/
abbrev Groups := List (List String × List Node)

/-- Model of `groups.setdefault(key, []).append(node)`. -/
def insert_group (gs : Groups) (k : List String) (n : Node) : Groups :=
  match gs with
  | [] => [(k, [n])]
  | (k', g) :: rest =>
      if k' = k then (k', g ++ [n]) :: rest else (k', g) :: insert_group rest k n

/-- The bucket map built by the grouping loop of `_balanced_sample`
(src/core/node_manager.py lines 55-58). -/
def build_groups (bf : List FilterField) (nodes : List Node) : Groups :=
  nodes.foldl (fun gs n => insert_group gs (bucket_key bf n) n) []

/-- Oracle for `random.sample`: given the population and the sample size,
return the drawn list.  Theorems constrain it through `DrawValid`. -/
abbrev Draw := List Node → Nat → List Node

/-- A draw oracle is valid when, for a feasible size, it returns exactly
`k` elements drawn without replacement from the population. -/
def DrawValid (draw : Draw) : Prop :=
  ∀ l k, k ≤ l.length → (draw l k).length = k ∧ List.Subperm (draw l k) l

/-- Model of `random.sample(l, k)` for a Python int `k`: raises
`ValueError` (modelled as `.error ()`) unless `0 ≤ k ≤ len(l)`. -/
def py_sample (draw : Draw) (l : List Node) (k : Int) : Except Unit (List Node) :=
  if 0 ≤ k ∧ k ≤ (l.length : Int) then .ok (draw l k.toNat) else .error ()

/-- Per-bucket quota/draw loop of `_balanced_sample`
(src/core/node_manager.py lines 64-77), iterating the shuffled buckets
with their position `i`; returns the concatenated draws and the
accumulated shortfall. -/
def draw_groups (draw : Draw) (base rem : Int) : Nat → Groups → Except Unit (List Node × Int)
  | _, [] => .ok ([], 0)
  | i, (_, g) :: rest => do
      let quota := base + (if (i : Int) < rem then 1 else 0)
      let take := min quota (g.length : Int)
      let s ← py_sample draw g take
      let pr ← draw_groups draw base rem (i + 1) rest
      .ok (s ++ pr.1, (quota - take) + pr.2)

/-- Model of `_balanced_sample` (src/core/node_manager.py lines 40-86).
`shuffled` is the oracle for `random.shuffle(group_keys)`: an arbitrary
permutation of the bucket association list (theorems require
`shuffled ~ build_groups (balance_fields filters) nodes`).  `base` and
`rem` use floor division/modulus, matching Python `divmod`; Python raises
on a zero divisor, modelled by the explicit error branch.  The
`id(n)`-based dedup of the shortfall fill is modelled by value membership:
all node dicts produced by `filter_api_nodes` are distinct objects, which
is mirrored by the `Nodup` hypotheses of the theorems. -/
def balanced_sample (draw : Draw) (nodes : List Node) (limit : Int)
    (filters : Filters) (shuffled : Groups) : Except Unit (List Node) :=
  let bf := balance_fields filters
  if bf.isEmpty then py_sample draw nodes limit
  else
    let B : Int := (shuffled.length : Int)
    if B = 0 then .error ()
    else do
      let base := limit.fdiv B
      let rem := limit.fmod B
      let pr ← draw_groups draw base rem 0 shuffled
      let result := pr.1
      let shortfall := pr.2
      if 0 < shortfall then
        let remaining := nodes.filter (fun n => decide (n ∉ result))
        if remaining.isEmpty then .ok result
        else do
          let fill ← py_sample draw remaining (min shortfall (remaining.length : Int))
          .ok (result ++ fill)
      else .ok result

/-- The healthy-and-filtered snapshot computed at the top of
`fetch_healthy_nodes` (src/core/node_manager.py lines 251-259). -/
def healthy_filtered (cache : List Node) (health : HealthMap) (filters : Filters) : List Node :=
  let healthy := cache.filter (fun n => decide (lookup_map health n.hostname = some Health.healthy))
  if filters.isEmpty then healthy else apply_filters filters healthy

/-- Model of `NodeManager.fetch_healthy_nodes`
(src/core/node_manager.py lines 251-265).  `limit` is the Python value:
absent (`None`) or an arbitrary int. -/
def fetch_healthy_nodes (draw : Draw) (shuffled : Groups) (cache : List Node)
    (health : HealthMap) (limit : Option Int) (filters : Filters) : Except Unit (List Node) :=
  let healthy := healthy_filtered cache health filters
  match limit with
  | some L =>
      if L < (healthy.length : Int) then
        if filters.isEmpty then py_sample draw healthy L
        else balanced_sample draw healthy L filters shuffled
      else .ok healthy
  | none => .ok healthy

/-- Checker: the call returned (did not raise) and the returned list
satisfies `p`. -/
def except_check (e : Except Unit (List Node)) (p : List Node → Bool) : Bool :=
  match e with
  | .error _ => false
  | .ok l => p l

/-- Checker: every node of a returned list satisfies `p` (vacuously true
when the call raised). -/
def except_all (e : Except Unit (List Node)) (p : Node → Bool) : Bool :=
  match e with
  | .error _ => true
  | .ok l => l.all p

/-- Boolean form of `List.Nodup` for result checking. -/
def nodup_b (l : List Node) : Bool := decide l.Nodup

/-- Raw catalog record, as read from the `results.nodes` array of the
upstream API (spec.md section 6).  `asn` is an int, `participant` an
optional participant id (a missing key and a JSON `null` both read as
`None` through `dict.get`), `city` may be `null`. -/
structure RawNode where
  hostname : String
  asn : Int
  city : Option String
  countrycode : String
  alive_ipv4 : Bool
  alive_ipv6 : Bool
  participant : Option Int
deriving DecidableEq, Repr

/-- Participant directory: the `{p["id"]: p["company"]}` map built by
`fetch_participants`. -/
abbrev Participants := List (Int × String)

/-- Lookup in the participant map (models `dict.get`). -/
def lookup_participant : Participants → Option Int → Option String
  | _, none => none
  | [], _ => none
  | (i, c) :: rest, some k => if i = k then some c else lookup_participant rest (some k)

/-- Model of `str.upper` restricted to the characters of ISO country
codes (ASCII case mapping). -/
def py_upper (s : String) : String := String.mk (s.toList.map Char.toUpper)

/-- Body of the transformation loop in `filter_api_nodes`
(src/core/node_manager.py lines 125-135).  `getContinent` abstracts
`core.geo.get_continent`, which wraps the third-party country-converter
dataset. -/
def normalize_node (getContinent : String → String) (participants : Participants)
    (n : RawNode) : Node :=
  let cc := py_upper n.countrycode
  { hostname := n.hostname
    asn := some (toString n.asn)
    city := n.city
    countrycode := some cc
    continent := some (getContinent cc)
    company := some ((lookup_participant participants n.participant).getD "Unknown") }

/-- Model of `NodeManager.filter_api_nodes`
(src/core/node_manager.py lines 117-136): the accumulator loop that skips
records that are not dual-stack alive and appends the normalized record
otherwise. -/
def filter_api_nodes (getContinent : String → String) (participants : Participants)
    (raw : List RawNode) : List Node :=
  raw.foldl
    (fun acc n =>
      if n.alive_ipv4 && n.alive_ipv6 then acc ++ [normalize_node getContinent participants n]
      else acc)
    []

/-- Characters on which Python `str.index` / slicing act in
`cleanup_stale_sockets`: position of the first occurrence. -/
def first_index : List Char → Char → Option Nat
  | [], _ => none
  | c :: rest, t => if c = t then some 0 else (first_index rest t).map (· + 1)

/-- Position of the last occurrence (Python `str.rindex`). -/
def last_index (l : List Char) (t : Char) : Option Nat :=
  (first_index l.reverse t).map (fun i => l.length - 1 - i)

/-- Hostname parsed out of a control-socket filename
(src/core/session_manager.py lines 114-121): drop the template-derived
prefix, slice between the first `@` and the last `:`.  `none` models the
`ValueError` (caught, entry skipped).  Python slicing with an empty or
reversed range yields the empty string, matching the truncated `Nat`
subtraction here. -/
def parse_socket_hostname (pre : String) (entry : String) : Option String :=
  let remainder := (entry.toList).drop pre.length
  match first_index remainder '@', last_index remainder ':' with
  | some ai, some ci => some (String.mk ((remainder.drop (ai + 1)).take (ci - (ai + 1))))
  | _, _ => none

/-- Model of `SSHSessionManager.cleanup_stale_sockets`
(src/core/session_manager.py lines 87-152).  `entries` is the directory
listing; `probe` is the oracle for the `ssh -O check` subprocess on a
socket file: `some true` = exit zero (live, adopted), `some false` =
non-zero exit (socket removed from disk), `none` = probe timeout (socket
removed from disk).  Only the effect on `active_sessions` is modelled. -/
def cleanup_stale_sockets (active : List String) (pre : String)
    (entries : List String) (probe : String → Option Bool) : List String :=
  entries.foldl
    (fun acc entry =>
      if (pre.toList).isPrefixOf entry.toList then
        match parse_socket_hostname pre entry with
        | none => acc
        | some hostname =>
            match probe entry with
            | some true => add_session acc hostname
            | _ => acc
      else acc)
    active

/-- Model of `SSHSessionManager.start_sessions_parallel`
(src/core/session_manager.py lines 154-182).  `hostnames` is the set
passed by the caller (a Python set: modelled by deduplication);
`spawn h` is the oracle for the ssh master spawn for host `h` (`false`
also covers a `future.result()` exception, which the source converts to
`success = False`).  The worker pool is modelled sequentially: the
elements of `to_start` are pairwise distinct and absent from
`active_sessions`, so their `start_session` calls do not interact; the
(nondeterministic) completion order only permutes the returned callback
trace, which no theorem depends on.  Returns the new active set and the
trace of `progress_callback(host, ok)` invocations. -/
def start_sessions_parallel (active : List String) (hostnames : List String)
    (spawn : String → Bool) : List String × List (String × Bool) :=
  let to_start := hostnames.dedup.filter (fun h => decide (h ∉ active))
  to_start.foldl
    (fun st h =>
      let r := start_session st.1 h (spawn h)
      (r.1, st.2 ++ [(h, r.2)]))
    (active, [])

/-- Result of `NodeManager.startup_restore_sessions`: the session set, the
health map, the published node cache, and (for specification purposes)
the trace of progress-callback invocations. -/
structure StartupResult where
  active : List String
  health : HealthMap
  cache : List Node
  trace : List (String × Bool)
deriving Repr

/-- Model of `NodeManager.startup_restore_sessions`
(src/core/node_manager.py lines 138-183).  `active0` is the session set
at entry (empty on a cold start); the health map at entry is empty
(`NodeManager.__init__`, and the loop runs startup first).  `api` is
`some (raw, participants)` when the catalog fetch succeeds, `none`
otherwise; `cached` is the result of `load_node_cache`.  The persisting
side effect (`save_node_cache`) does not touch the modelled state.  The
progress callback records `healthy` for each successful start. -/
def startup_restore_sessions (getContinent : String → String)
    (active0 : List String) (pre : String) (entries : List String)
    (probe : String → Option Bool)
    (cached : Option (List Node)) (api : Option (List RawNode × Participants))
    (spawn : String → Bool) : StartupResult :=
  let a1 := cleanup_stale_sockets active0 pre entries probe
  let api_nodes : Option (List Node) :=
    api.map (fun rp => filter_api_nodes getContinent rp.2 rp.1)
  let nodes : Option (List Node) :=
    match api_nodes with
    | some l => some l
    | none => cached
  match nodes with
  | none => { active := a1, health := [], cache := [], trace := [] }
  | some ns =>
      let hostnames := ns.map Node.hostname
      let st := start_sessions_parallel a1 hostnames spawn
      let health := st.2.foldl
        (fun hm hb => if hb.2 then upd_map hm hb.1 Health.healthy else hm) []
      { active := st.1, health := health, cache := ns, trace := st.2 }

/-- ASCII whitespace stripped by Python `int()` / `float()` and split on
by `str.split()`. -/
def is_py_space (c : Char) : Bool :=
  c = ' ' || c = '\t' || c = '\n' || c = '\r' || c = '\x0b' || c = '\x0c'

/-- Strip leading and trailing whitespace. -/
def strip_chars (l : List Char) : List Char :=
  ((l.dropWhile is_py_space).reverse.dropWhile is_py_space).reverse

/-- Decimal digit groups as accepted by Python numeric literals: digits
with single underscores allowed strictly between digits.  Continuation
after the first digit: an underscore must be followed by a digit. -/
def py_digits_rest (acc : Nat) : List Char → Option Nat
  | [] => some acc
  | c :: rest =>
      if c = '_' then
        match rest with
        | [] => none
        | d :: t => if d.isDigit then py_digits_rest (acc * 10 + (d.toNat - 48)) t else none
      else if c.isDigit then py_digits_rest (acc * 10 + (c.toNat - 48)) rest else none

/-- Value of a digit group, `none` if the group is empty or malformed. -/
def py_digits (l : List Char) : Option Nat :=
  match l with
  | c :: rest => if c.isDigit then py_digits_rest (c.toNat - 48) rest else none
  | [] => none

/-- Evaluation of the built-in `int(s)` on short ASCII inputs: strip
ASCII whitespace, optional sign, decimal digits with underscores between
digits; `none` models the `ValueError`.  This evaluator is only used to
compute the built-in's value at concrete ASCII arguments such as `"-1"`;
the built-in additionally accepts non-ASCII decimal digits and Unicode
whitespace and enforces a digit-count limit, so it is passed to the
route model below as an unconstrained oracle rather than fixed to this
function. -/
def py_int_ascii (s : String) : Option Int :=
  match strip_chars s.toList with
  | [] => none
  | c :: rest =>
      if c = '+' then (py_digits rest).map (fun n => (n : Int))
      else if c = '-' then (py_digits rest).map (fun n => -(n : Int))
      else (py_digits (c :: rest)).map (fun n => (n : Int))

/-- The limit-parsing step of the `/probe` route
(src/app/routes.py lines 38-42), parametrized by the behaviour `pyint`
of the built-in `int` on the parameter string (`none` = `ValueError`).
`.error` models the 400 response "Invalid limit parameter"; `.ok`
continues with the parsed value. -/
def probe_parse_limit_gen (pyint : String → Option Int)
    (limit_param : Option String) : Except String (Option Int) :=
  match limit_param with
  | none => .ok none
  | some s =>
      match pyint s with
      | none => .error "Invalid limit parameter"
      | some n => .ok (some n)

/-- Characters allowed in a digit group. -/
def valid_digit_char (c : Char) : Bool := c.isDigit || c = '_'

/-- The last character, when there is one, is a digit. -/
def last_digit_ok (l : List Char) : Bool :=
  match l.getLast? with
  | some x => x.isDigit
  | none => true

/-- No two consecutive underscores occur. -/
def no_double_underscore (l : List Char) : Bool := decide (¬ (['_', '_'] <:+: l))

/-- Grammar of an ASCII digit group in a Python numeric literal (used by
the float grammar below): a nonempty string of digits and underscores
that starts and ends with a digit and has no two consecutive
underscores. -/
def digit_group_spec (l : List Char) : Bool :=
  decide (l ≠ []) &&
  l.all valid_digit_char &&
  (match l.head? with | some c => c.isDigit | none => false) &&
  last_digit_ok l && no_double_underscore l

/-- Line-break characters recognized by Python `str.splitlines`. -/
def is_line_break (c : Char) : Bool :=
  c = '\n' || c = '\r' || c = '\x0b' || c = '\x0c' || c = '\x1c' ||
  c = '\x1d' || c = '\x1e' || c = '\x85' || c = '\u2028' || c = '\u2029'

/-- Model of `str.splitlines` on character lists: `cur` is the line being
accumulated; `\r\n` counts as a single break; no empty trailing line is
produced for input ending in a break. -/
def py_splitlines_aux : List Char → List Char → List (List Char)
  | cur, [] => if cur = [] then [] else [cur]
  | cur, c :: rest =>
      if c = '\r' then
        match rest with
        | [] => cur :: py_splitlines_aux [] []
        | d :: rest2 =>
            if d = '\n' then cur :: py_splitlines_aux [] rest2
            else cur :: py_splitlines_aux [] (d :: rest2)
      else if is_line_break c then cur :: py_splitlines_aux [] rest
      else py_splitlines_aux (cur ++ [c]) rest

/-- Model of `output.splitlines()` (src/core/ping.py line 43). -/
def py_splitlines (s : String) : List String :=
  (py_splitlines_aux [] s.toList).map (fun l => String.mk l)

/-- Model of `str.startswith`. -/
def str_startswith (s w : String) : Bool := (w.toList).isPrefixOf s.toList

/-- Substring search on character lists (Python `in` on strings). -/
def chars_has (w : List Char) : List Char → Bool
  | [] => w.isEmpty
  | c :: rest => w.isPrefixOf (c :: rest) || chars_has w rest

/-- Model of Python `w in s` for strings (src/core/ping.py line 42). -/
def str_has (s w : String) : Bool := chars_has w.toList s.toList

/-- Model of `str.split()` with no separator: split on whitespace runs,
discarding empty fields. -/
def py_split_ws_aux : List Char → List Char → List (List Char)
  | cur, [] => if cur = [] then [] else [cur]
  | cur, c :: rest =>
      if is_py_space c then
        if cur = [] then py_split_ws_aux [] rest
        else cur :: py_split_ws_aux [] rest
      else py_split_ws_aux (cur ++ [c]) rest

/-- String-level wrapper for whitespace split. -/
def py_split_ws (s : String) : List String :=
  (py_split_ws_aux [] s.toList).map (fun l => String.mk l)

/-- Split a character list at the first character satisfying `p`,
dropping that character; `none` if no such character exists. -/
def split_at_first (p : Char → Bool) : List Char → Option (List Char × List Char)
  | [] => none
  | c :: rest =>
      if p c then some ([], rest)
      else (split_at_first p rest).map (fun pr => (c :: pr.1, pr.2))

/-- Acceptor for the mantissa of a Python float literal (no sign, no
exponent): `d+ [. d*]` or `. d+`, digit groups with underscores between
digits. -/
def py_float_mantissa (m : List Char) : Bool :=
  match split_at_first (· = '.') m with
  | none => digit_group_spec m
  | some (ip, fp) =>
      (digit_group_spec ip && (decide (fp = []) || digit_group_spec fp)) ||
      (decide (ip = []) && digit_group_spec fp)

/-- Acceptor for an unsigned Python float literal body: mantissa with an
optional `e`/`E` exponent (exponent sign allowed). -/
def py_float_numeric (body : List Char) : Bool :=
  match split_at_first (fun c => c = 'e' || c = 'E') body with
  | none => py_float_mantissa body
  | some (m, ex) =>
      let exb := match ex with
        | '+' :: r => r
        | '-' :: r => r
        | r => r
      py_float_mantissa m && digit_group_spec exb

/-- Model of the domain of Python `float(s)`: whitespace stripped, an
optional sign, then a numeric literal or inf/infinity/nan
(case-insensitive).  Only acceptance matters to the classification in
`ping_from_node`; the emitted statistics are modelled by the accepted
literal itself. -/
def py_float_accepts (s : String) : Bool :=
  let l := strip_chars s.toList
  let body := match l with
    | '+' :: r => r
    | '-' :: r => r
    | r => r
  let low := body.map Char.toLower
  low = "inf".toList || low = "infinity".toList || low = "nan".toList ||
  py_float_numeric body

/-- Model of the rtt-line extraction in `ping_from_node`
(src/core/ping.py lines 47-48): `rtt_line.split('=')[1].split()[0]` then
`.split('/')` into exactly four float literals.  `none` models any raised
`IndexError`/`ValueError` (caught by the generic handler, outcome
`exception`). -/
def parse_rtt_line (line : String) : Option (String × String × String × String) :=
  match (py_split_char line '=')[1]? with
  | none => none
  | some seg =>
      match (py_split_ws seg)[0]? with
      | none => none
      | some token =>
          match py_split_char token '/' with
          | [a, b, c, d] =>
              if py_float_accepts a && py_float_accepts b &&
                 py_float_accepts c && py_float_accepts d
              then some (a, b, c, d) else none
          | _ => none

/-- Outcome labels of `ping_from_node` (src/core/ping.py).  `ok` carries
the four emitted statistics as the accepted float literals
MIN/AVG/MAX/MDEV. -/
inductive PingOutcome where
  | ok (rtt_min rtt_avg rtt_max rtt_mdev : String)
  | no_rtt
  | ping_error
  | ssh_timeout
  | exception
deriving DecidableEq, Repr

/-- Classification of a successful remote command's stdout
(src/core/ping.py lines 42-57): substring test for "rtt", first line
starting with "rtt", then the fallible statistics parse. -/
def classify_ping_output (output : String) : PingOutcome :=
  if str_has output "rtt" then
    match (py_splitlines output).find? (fun l => str_startswith l "rtt") with
    | none => .no_rtt
    | some line =>
        match parse_rtt_line line with
        | some t => .ok t.1 t.2.1 t.2.2.1 t.2.2.2
        | none => .exception
  else .no_rtt

/-- Observable outcome of the ssh subprocess run by `ping_from_node`:
wall-clock timeout, non-zero remote exit (`CalledProcessError`), or exit
zero with captured stdout. -/
inductive CmdOutcome where
  | timedOut
  | calledProcessError
  | output (stdout : String)

/-- Model of `ping_from_node` (src/core/ping.py lines 35-71), abstracted
over the subprocess outcome. -/
def ping_from_node (r : CmdOutcome) : PingOutcome :=
  match r with
  | .timedOut => .ssh_timeout
  | .calledProcessError => .ping_error
  | .output s => classify_ping_output s

/-- Spec-side shape of a statistics line (spec.md section 4.3): a line
beginning with `rtt` whose first token after the first `=` consists of
four float literals separated by `/`. -/
def rtt_line_shape (l : String) : Bool :=
  str_startswith l "rtt" && (parse_rtt_line l).isSome

/-- JSON values, restricted to the constructors the node-cache schema
exercises (`json.dump` of a list of dicts with string-or-null values).
The byte-level serialization performed by the `json` standard library is
treated as the identity on these values. -/
inductive Json where
  | jnull
  | jstr (s : String)
  | jarr (l : List Json)
  | jobj (l : List (String × Json))

/-- Encoding of a string-or-None field value. -/
def opt_str_to_json : Option String → Json
  | none => .jnull
  | some s => .jstr s

/-- Inverse reading of a string-or-None field value. -/
def json_to_opt_str : Json → Option (Option String)
  | .jnull => some none
  | .jstr s => some (some s)
  | _ => none

/-- JSON object written for one node dict by `save_node_cache` (dict
insertion order of `filter_api_nodes`). -/
def node_to_json (n : Node) : Json :=
  .jobj [("hostname", .jstr n.hostname), ("asn", opt_str_to_json n.asn),
         ("city", opt_str_to_json n.city), ("countrycode", opt_str_to_json n.countrycode),
         ("continent", opt_str_to_json n.continent), ("company", opt_str_to_json n.company)]

/-- Reading a node dict back from its JSON value. -/
def json_to_node : Json → Option Node
  | .jobj [("hostname", .jstr h), ("asn", a), ("city", ci), ("countrycode", cc),
           ("continent", co), ("company", cp)] => do
      let a2 ← json_to_opt_str a
      let ci2 ← json_to_opt_str ci
      let cc2 ← json_to_opt_str cc
      let co2 ← json_to_opt_str co
      let cp2 ← json_to_opt_str cp
      some { hostname := h, asn := a2, city := ci2, countrycode := cc2,
             continent := co2, company := cp2 }
  | _ => none

/-- JSON array written by `save_node_cache`. -/
def nodes_to_json (l : List Node) : Json := .jarr (l.map node_to_json)

/-- Element-wise reading of a list of node dicts. -/
def json_to_nodes_list : List Json → Option (List Node)
  | [] => some []
  | j :: rest => do
      let n ← json_to_node j
      let ns ← json_to_nodes_list rest
      some (n :: ns)

/-- Reading the node sequence back from the cache file's JSON value. -/
def json_to_nodes : Json → Option (List Node)
  | .jarr l => json_to_nodes_list l
  | _ => none

/-- Model of `save_node_cache` (src/core/node_cache_store.py lines 9-24).
The file system is the content of `/tmp/ssh-control/node_cache.json`
(`none` = absent or unreadable).  `writeOk` is the oracle for the
write-to-temp-and-rename: on any failure the exception is swallowed and,
because the write goes to a temp file first, the previous content is
retained. -/
def save_node_cache (fs : Option Json) (nodes : List Node) (writeOk : Bool) : Option Json :=
  if writeOk then some (nodes_to_json nodes) else fs

/-- Model of `load_node_cache` (src/core/node_cache_store.py lines
27-36): any read error (missing file, unreadable file, malformed JSON)
yields `none`; otherwise the parsed JSON value is returned as-is (the
source performs no schema validation on load). -/
def load_node_cache (fs : Option Json) : Option Json :=
  match fs with
  | none => none
  | some j => some j

/-- Deterministic valid draw oracle used by witnesses: take the first `k`
elements. -/
def take_draw : Draw := fun l k => l.take k

/-- Sum of the bucket quotas assigned by `_balanced_sample` to buckets at
positions `i, i+1, ...` (`B` buckets): `base` each plus one for positions
below `rem`. -/
def quota_sum (base rem : Int) : Nat → Nat → Int
  | _, 0 => 0
  | i, B + 1 => (base + (if (i : Int) < rem then 1 else 0)) + quota_sum base rem (i + 1) B

/-- Concrete node records used by witnesses. -/
def wn1 : Node :=
  { hostname := "a.ring.nlnog.net", asn := some "64496", city := some "Amsterdam",
    countrycode := some "NL", continent := some "Europe", company := some "C1" }

/-- Second concrete witness record. -/
def wn2 : Node :=
  { hostname := "b.ring.nlnog.net", asn := some "64497", city := some "Denver",
    countrycode := some "US", continent := some "North America", company := some "C2" }

/-- Third concrete witness record. -/
def wn3 : Node :=
  { hostname := "c.ring.nlnog.net", asn := some "64498", city := some "Berlin",
    countrycode := some "DE", continent := some "Europe", company := some "C3" }

/-- Concrete witness record with a missing (None) city field. -/
def wn_miss : Node :=
  { hostname := "m.ring.nlnog.net", asn := some "64499", city := none,
    countrycode := some "NL", continent := some "Europe", company := some "C4" }

/-- Concrete filters (one multi-valued field) used by witnesses. -/
def wfilters : Filters := [(FilterField.continent, ["europe", "north america"])]

/-- Concrete filters on the city field used by witnesses. -/
def wfilters_city : Filters := [(FilterField.city, ["amsterdam", "berlin"])]

/-- Concrete raw catalog record used by witnesses. -/
def wraw : RawNode :=
  { hostname := "a.ring.nlnog.net", asn := 64496, city := some "Amsterdam",
    countrycode := "nl", alive_ipv4 := true, alive_ipv6 := true, participant := some 1 }

/-- Concrete startup run used by witnesses: one adoptable live socket on
disk, the catalog returning one dual-stack-alive node. -/
def wstartup : StartupResult :=
  startup_restore_sessions (fun _ => "Europe") [] "nlnog-"
    ["nlnog-rise@adopted.ring.nlnog.net:22"] (fun _ => some true) none
    (some ([wraw], [(1, "C1")])) (fun _ => true)

/-- Concrete health map used by witnesses. -/
def whealth : HealthMap :=
  [("a.ring.nlnog.net", Health.healthy), ("b.ring.nlnog.net", Health.healthy),
   ("c.ring.nlnog.net", Health.healthy)]

/-! Helper lemmas about the session-set operations. -/

theorem mem_add_session {s : List String} {h x : String} :
    x ∈ add_session s h ↔ x = h ∨ x ∈ s := by
  unfold add_session
  by_cases hm : h ∈ s <;> simp [hm]
  rintro rfl; exact hm

theorem mem_start_session_final {s : List String} {x h : String} {b : Bool}
    (hx : x ∈ s) : x ∈ (start_session s h b).1 := by
  unfold start_session start_session_run
  by_cases hm : h ∈ s
  · simpa [hm]
  · by_cases hb : b
    · simp [hm, hb, mem_add_session, hx]
    · have hne : x ≠ h := fun he => hm (he ▸ hx)
      simp only [hm, hb, if_neg, if_false, ite_false]
      simp only [add_session, hm, ite_false, if_false, if_neg]
      exact (List.mem_erase_of_ne hne).mpr (List.mem_cons_of_mem _ hx)

theorem self_mem_start_session_true (s : List String) (h : String) :
    h ∈ (start_session s h true).1 := by
  unfold start_session start_session_run
  by_cases hm : h ∈ s
  · simp [hm]
  · simp [hm, mem_add_session]

theorem mem_stop_session {s : List String} {x h : String}
    (hx : x ∈ s) (hne : x ≠ h) : x ∈ stop_session s h := by
  unfold stop_session
  by_cases hm : h ∈ s
  · simpa [hm] using (List.mem_erase_of_ne hne).mpr hx
  · simpa [hm]

theorem mem_upd_map {m : HealthMap} {k : String} {v : Health} {p : String × Health}
    (hp : p ∈ upd_map m k v) : p = (k, v) ∨ p ∈ m := by
  induction m with
  | nil => simpa [upd_map] using hp
  | cons q rest ih =>
      unfold upd_map at hp
      by_cases he : q.1 = k
      · rcases (by simpa [he] using hp : p = (k, v) ∨ p ∈ rest) with h | h
        · exact Or.inl h
        · exact Or.inr (List.mem_cons_of_mem _ h)
      · rcases (by simpa [he] using hp : p = q ∨ p ∈ upd_map rest k v) with h | h
        · exact Or.inr (h ▸ List.mem_cons_self _ _)
        · rcases ih h with h2 | h2
          · exact Or.inl h2
          · exact Or.inr (List.mem_cons_of_mem _ h2)

/-- C4: `start_session` is idempotent and atomic on failure.  If the host
is already present the call returns ok without spawning and leaves the
set unchanged.  Otherwise it spawns, the host is present in the set while
the spawn runs (the optimistic insert), the call returns ok iff the spawn
exits zero, and on spawn failure the set is rolled back to its value
before the call. -/
theorem start_session_idempotent_atomic (s : List String) (h : String) (spawnOk : Bool) :
    (h ∈ s →
      (start_session_run s h spawnOk).ok = true ∧
      (start_session_run s h spawnOk).spawned = false ∧
      (start_session_run s h spawnOk).final = s) ∧
    (h ∉ s →
      (start_session_run s h spawnOk).spawned = true ∧
      h ∈ (start_session_run s h spawnOk).during ∧
      ((start_session_run s h spawnOk).ok = true ↔ spawnOk = true) ∧
      (spawnOk = false → (start_session_run s h spawnOk).final = s)) := by
  unfold start_session_run
  by_cases hm : h ∈ s
  · simp [hm]
  · by_cases hb : spawnOk
    · simp [hm, hb, add_session, mem_add_session]
    · simp [hm, hb, add_session, List.erase_cons_head]

/-- Witness for C4 at a concrete input: host absent, spawn fails; the
call spawns with the host optimistically present, and the final state
equals the initial one. -/
theorem start_session_idempotent_atomic_witness :
    ("a.ring.nlnog.net" ∉ (["b.ring.nlnog.net"] : List String)) ∧
    (start_session_run ["b.ring.nlnog.net"] "a.ring.nlnog.net" false).spawned = true ∧
    "a.ring.nlnog.net" ∈ (start_session_run ["b.ring.nlnog.net"] "a.ring.nlnog.net" false).during ∧
    (start_session_run ["b.ring.nlnog.net"] "a.ring.nlnog.net" false).final = ["b.ring.nlnog.net"] := by
  have hm : "a.ring.nlnog.net" ∉ (["b.ring.nlnog.net"] : List String) := by decide
  have h := (start_session_idempotent_atomic ["b.ring.nlnog.net"] "a.ring.nlnog.net" false).2 hm
  exact ⟨hm, h.1, h.2.1, h.2.2.2 rfl⟩

/-- Counterexample to C1: starting from a state satisfying the invariant
(host present, empty health map), `check_and_manage_ssh_session` with a
failed check and a failed restart spawn leaves the host labelled
`restarted` while absent from `active_sessions`. -/
theorem check_and_manage_restart_fail_breaks_invariant :
    health_session_invariant ["h1.ring.nlnog.net"] [] ∧
    (check_and_manage_ssh_session ["h1.ring.nlnog.net"] [] "h1.ring.nlnog.net" true false false).2
      = [("h1.ring.nlnog.net", Health.restarted)] ∧
    (check_and_manage_ssh_session ["h1.ring.nlnog.net"] [] "h1.ring.nlnog.net" true false false).1
      = [] ∧
    ¬ health_session_invariant
        (check_and_manage_ssh_session ["h1.ring.nlnog.net"] [] "h1.ring.nlnog.net" true false false).1
        (check_and_manage_ssh_session ["h1.ring.nlnog.net"] [] "h1.ring.nlnog.net" true false false).2 := by
  refine ⟨by decide, by decide, by decide, by decide⟩

/-- C1 (amended): the healthy/restarted-implies-present invariant is
preserved by `check_and_manage_ssh_session` provided the start attempts
it makes succeed: when the check passes, the host was present or the
initial start's spawn exited zero; when the check fails, the restart's
spawn exited zero.  (The counterexample shows the unrestricted claim
fails when the restart spawn fails.) -/
theorem check_and_manage_preserves_invariant
    (active : List String) (health : HealthMap) (h : String)
    (spawn1 checkOk spawn2 : Bool)
    (hinv : health_session_invariant active health)
    (h1 : checkOk = true → h ∈ active ∨ spawn1 = true)
    (h2 : checkOk = false → spawn2 = true) :
    health_session_invariant
      (check_and_manage_ssh_session active health h spawn1 checkOk spawn2).1
      (check_and_manage_ssh_session active health h spawn1 checkOk spawn2).2 := by
  unfold check_and_manage_ssh_session
  by_cases hc : checkOk
  · simp only [hc, if_pos, if_true]
    intro p hp hlab
    rcases mem_upd_map hp with rfl | hpm
    · rcases h1 hc with hmem | hspawn
      · exact mem_start_session_final hmem
      · subst hspawn
        exact self_mem_start_session_true active h
    · exact mem_start_session_final (hinv p hpm hlab)
  · have hs2 : spawn2 = true := h2 (by simpa using hc)
    subst hs2
    simp only [hc, if_neg, if_false, ite_false]
    intro p hp hlab
    rcases mem_upd_map hp with rfl | hpm
    · exact self_mem_start_session_true _ h
    · have hp1 : p.1 ∈ active := hinv p hpm hlab
      by_cases hph : p.1 = h
      · exact hph ▸ self_mem_start_session_true _ h
      · exact mem_start_session_final
          (mem_stop_session (mem_start_session_final hp1) hph)

/-- Witness for the amended C1 at a concrete input: present host, failed
check, successful restart. -/
theorem check_and_manage_preserves_invariant_witness :
    health_session_invariant
      (check_and_manage_ssh_session ["a.ring.nlnog.net"]
        [("a.ring.nlnog.net", Health.healthy)] "a.ring.nlnog.net" true false true).1
      (check_and_manage_ssh_session ["a.ring.nlnog.net"]
        [("a.ring.nlnog.net", Health.healthy)] "a.ring.nlnog.net" true false true).2 :=
  check_and_manage_preserves_invariant ["a.ring.nlnog.net"]
    [("a.ring.nlnog.net", Health.healthy)] "a.ring.nlnog.net" true false true
    (by decide) (by decide) (by decide)

/-! Lemmas for the node-cache round trip. -/

theorem opt_str_round (x : Option String) : json_to_opt_str (opt_str_to_json x) = some x := by
  cases x <;> rfl

theorem json_to_node_round (n : Node) : json_to_node (node_to_json n) = some n := by
  cases n
  simp [node_to_json, json_to_node, opt_str_round, Option.bind]

theorem json_to_nodes_round (l : List Node) : json_to_nodes (nodes_to_json l) = some l := by
  unfold json_to_nodes nodes_to_json
  induction l with
  | nil => rfl
  | cons n rest ih =>
      simp only [List.map_cons, json_to_nodes_list, json_to_node_round]
      simp only [List.map] at ih
      simp [ih, Option.bind]

/-- C7: saving the node list and loading it back yields a value that
decodes to a sequence equal to the saved one (round trip), provided the
write succeeds (`writeOk = true`) and the read succeeds (the loaded file
is present); and `load_node_cache` returns `none` on any read error. -/
theorem node_cache_round_trip (fs : Option Json) (nodes : List Node) :
    load_node_cache (save_node_cache fs nodes true) = some (nodes_to_json nodes) ∧
    json_to_nodes (nodes_to_json nodes) = some nodes ∧
    load_node_cache none = none :=
  ⟨rfl, json_to_nodes_round nodes, rfl⟩

/-- Witness for C7 at a concrete two-node cache. -/
theorem node_cache_round_trip_witness :
    load_node_cache (save_node_cache none [wn1, wn2] true) = some (nodes_to_json [wn1, wn2]) ∧
    json_to_nodes (nodes_to_json [wn1, wn2]) = some [wn1, wn2] ∧
    load_node_cache none = none :=
  node_cache_round_trip none [wn1, wn2]

/-- Fold characterization used by C8. -/
theorem filter_api_nodes_go (gc : String → String) (parts : Participants)
    (raw : List RawNode) (acc : List Node) :
    raw.foldl
      (fun acc n =>
        if n.alive_ipv4 && n.alive_ipv6 then acc ++ [normalize_node gc parts n] else acc)
      acc =
    acc ++ (raw.filter (fun n => n.alive_ipv4 && n.alive_ipv6)).map (normalize_node gc parts) := by
  induction raw generalizing acc with
  | nil => simp
  | cons r rest ih =>
      rw [List.foldl_cons, List.filter_cons]
      cases hr : (r.alive_ipv4 && r.alive_ipv6) with
      | false => simpa [hr] using ih acc
      | true =>
          simpa [hr, List.append_assoc] using ih (acc ++ [normalize_node gc parts r])

/-- C8: `filter_api_nodes` admits a raw record iff both liveness flags are
true, in order, and each admitted record is normalized: upper-cased
country code, continent derived from it via the geo enrichment function,
company resolved through the participant map with "Unknown" when the
participant id is missing or unresolved, hostname preserved. -/
theorem filter_api_nodes_spec (gc : String → String) (parts : Participants)
    (raw : List RawNode) :
    filter_api_nodes gc parts raw =
      (raw.filter (fun n => n.alive_ipv4 && n.alive_ipv6)).map (normalize_node gc parts) ∧
    ∀ n : RawNode,
      (normalize_node gc parts n).hostname = n.hostname ∧
      (normalize_node gc parts n).asn = some (toString n.asn) ∧
      (normalize_node gc parts n).city = n.city ∧
      (normalize_node gc parts n).countrycode = some (py_upper n.countrycode) ∧
      (normalize_node gc parts n).continent = some (gc (py_upper n.countrycode)) ∧
      (normalize_node gc parts n).company =
        some ((lookup_participant parts n.participant).getD "Unknown") ∧
      (n.participant = none →
        (normalize_node gc parts n).company = some "Unknown") := by
  constructor
  · have h := filter_api_nodes_go gc parts raw []
    simpa [filter_api_nodes] using h
  · intro n
    refine ⟨rfl, rfl, rfl, rfl, rfl, rfl, ?_⟩
    intro hp
    simp [normalize_node, hp, lookup_participant]

/-- Witness for C8 at a concrete input: one alive and one dead record. -/
theorem filter_api_nodes_spec_witness :
    filter_api_nodes (fun _ => "Europe") [(1, "C1")]
        [wraw, { wraw with hostname := "dead.ring.nlnog.net", alive_ipv6 := false }] =
      ([wraw, { wraw with hostname := "dead.ring.nlnog.net", alive_ipv6 := false }].filter
          (fun n => n.alive_ipv4 && n.alive_ipv6)).map
        (normalize_node (fun _ => "Europe") [(1, "C1")]) :=
  (filter_api_nodes_spec (fun _ => "Europe") [(1, "C1")]
    [wraw, { wraw with hostname := "dead.ring.nlnog.net", alive_ipv6 := false }]).1

/-- Counterexample to C5: the query string `limit=-1` does not parse as a
non-negative integer, yet the route's limit check accepts it (the
built-in `int("-1")` succeeds with value -1, as `py_int_ascii` computes
on this all-ASCII input) instead of rejecting the request with 400. -/
theorem probe_limit_negative_not_rejected :
    py_int_ascii "-1" = some (-1) ∧ ((-1 : Int) < 0) ∧
    probe_parse_limit_gen py_int_ascii (some "-1") = Except.ok (some (-1)) := by
  refine ⟨by decide, by decide, ?_⟩
  have h : py_int_ascii "-1" = some (-1) := by decide
  simp [probe_parse_limit_gen, h]

/-! Lemmas for the ping output classification. -/

theorem chars_has_append_self (w b : List Char) : chars_has w (w ++ b) = true := by
  cases hwb : w ++ b with
  | nil =>
      rcases List.append_eq_nil.mp hwb with ⟨rfl, rfl⟩
      rfl
  | cons c rest =>
      have hpre : w.isPrefixOf (w ++ b) = true :=
        List.isPrefixOf_iff_prefix.mpr (List.prefix_append w b)
      rw [hwb] at hpre
      simp [chars_has, hpre]

theorem chars_has_of_append (w a b : List Char) : chars_has w (a ++ w ++ b) = true := by
  induction a with
  | nil => simpa using chars_has_append_self w b
  | cons c a2 ih =>
      have ih2 : chars_has w (a2 ++ (w ++ b)) = true := by
        simpa [List.append_assoc] using ih
      rw [show (c :: a2) ++ w ++ b = c :: (a2 ++ (w ++ b)) from by simp]
      simp [chars_has, ih2]

theorem mem_shift (consumed rest2 : List Char) (line : List Char)
    (h : (∃ t r, rest2 = t ++ r ∧ line = [] ++ t) ∨ (∃ a b, rest2 = a ++ line ++ b)) :
    ∃ a b, consumed ++ rest2 = a ++ line ++ b := by
  rcases h with ⟨t, r, hr, hl⟩ | ⟨a, b, hr⟩
  · exact ⟨consumed, r, by simp [hr, hl]⟩
  · exact ⟨consumed ++ a, b, by simp [hr]⟩

theorem splitlines_aux_mem (cur input : List Char) :
    ∀ line ∈ py_splitlines_aux cur input,
      (∃ t r, input = t ++ r ∧ line = cur ++ t) ∨ (∃ a b, input = a ++ line ++ b) := by
  induction cur, input using py_splitlines_aux.induct with
  | case1 =>
      intro line h
      simp [py_splitlines_aux] at h
  | case2 cur hne =>
      intro line h
      rw [py_splitlines_aux.eq_def] at h
      simp only [hne, if_neg, ite_false, List.mem_singleton] at h
      exact Or.inl ⟨[], [], rfl, by simp [h]⟩
  | case3 cur ih =>
      intro line h
      rw [py_splitlines_aux.eq_def] at h
      simp [py_splitlines_aux] at h
      exact Or.inl ⟨[], ['\r'], by simp, by simp [h]⟩
  | case4 cur t ih =>
      intro line h
      rw [py_splitlines_aux.eq_def] at h
      simp only [if_pos, List.mem_cons, reduceIte] at h
      rcases h with h | h
      · exact Or.inl ⟨[], '\r' :: '\n' :: t, by simp, by simp [h]⟩
      · exact Or.inr (by
          have := mem_shift ['\r', '\n'] t line (ih line h)
          simpa using this)
  | case5 cur d t hd ih =>
      intro line h
      rw [py_splitlines_aux.eq_def] at h
      simp only [hd, if_pos, if_neg, List.mem_cons, reduceIte, ite_false] at h
      rcases h with h | h
      · exact Or.inl ⟨[], '\r' :: d :: t, by simp, by simp [h]⟩
      · exact Or.inr (by
          have := mem_shift ['\r'] (d :: t) line (ih line h)
          simpa using this)
  | case6 cur c rest hc hbr ih =>
      intro line h
      rw [py_splitlines_aux.eq_def] at h
      simp only [hc, hbr, if_pos, if_neg, List.mem_cons, reduceIte, ite_false, ite_true] at h
      rcases h with h | h
      · exact Or.inl ⟨[], c :: rest, by simp, by simp [h]⟩
      · exact Or.inr (by
          have := mem_shift [c] rest line (ih line h)
          simpa using this)
  | case7 cur c rest hc hbr ih =>
      intro line h
      rw [py_splitlines_aux.eq_def] at h
      simp only [hc, hbr, if_neg, reduceIte, ite_false] at h
      rcases ih line h with ⟨t, r, hr, hl⟩ | ⟨a, b, hr⟩
      · exact Or.inl ⟨c :: t, r, by simp [hr], by simp [hl]⟩
      · exact Or.inr ⟨c :: a, b, by simp [hr]⟩

theorem startswith_line_implies_has {s line : String}
    (hmem : line ∈ py_splitlines s) (hsw : str_startswith line "rtt" = true) :
    str_has s "rtt" = true := by
  unfold py_splitlines at hmem
  rcases List.mem_map.mp hmem with ⟨ll, hll, rfl⟩
  have hsw2 : ("rtt".toList).isPrefixOf ll = true := hsw
  rcases List.isPrefixOf_iff_prefix.mp hsw2 with ⟨q, hq⟩
  unfold str_has
  rcases splitlines_aux_mem [] s.toList ll hll with ⟨t, r, hr, hl⟩ | ⟨a, b, hr⟩
  · rw [hr, show t = ll from by simpa using hl.symm, ← hq]
    rw [show ("rtt".toList ++ q) ++ r = [] ++ "rtt".toList ++ (q ++ r) from by simp]
    exact chars_has_of_append _ _ _
  · rw [hr, ← hq]
    rw [show a ++ ("rtt".toList ++ q) ++ b = a ++ "rtt".toList ++ (q ++ b) from by simp]
    exact chars_has_of_append _ _ _

/-- Counterexample to C6: on a successful command whose stdout is the
single line "rtt oops" (a line beginning with `rtt` but not of the
statistics shape), the claim demands outcome `no_rtt`, but the code's
parse raises (IndexError on `split('=')[1]`) and the outcome is
`exception`. -/
theorem ping_malformed_rtt_line_is_exception :
    (py_splitlines "rtt oops").all (fun l => !(rtt_line_shape l)) = true ∧
    str_startswith "rtt oops" "rtt" = true ∧
    ping_from_node (CmdOutcome.output "rtt oops") = PingOutcome.exception ∧
    PingOutcome.exception ≠ PingOutcome.no_rtt := by
  refine ⟨by decide, by decide, by decide, by decide⟩

/-- C6 (amended): for a successful remote command, the outcome is
`no_rtt` iff no stdout line begins with `rtt`; when a line beginning with
`rtt` exists, the outcome is determined by the fallible statistics parse
of the first such line: `ok` with the four parsed float literals on
success, `exception` on failure (not `no_rtt`). -/
theorem classify_ping_output_spec (s : String) :
    (ping_from_node (CmdOutcome.output s) = PingOutcome.no_rtt ↔
      (py_splitlines s).find? (fun l => str_startswith l "rtt") = none) ∧
    (∀ line, (py_splitlines s).find? (fun l => str_startswith l "rtt") = some line →
      ping_from_node (CmdOutcome.output s) =
        (match parse_rtt_line line with
         | some t => PingOutcome.ok t.1 t.2.1 t.2.2.1 t.2.2.2
         | none => PingOutcome.exception)) := by
  constructor
  · constructor
    · intro hno
      cases hfind : (py_splitlines s).find? (fun l => str_startswith l "rtt") with
      | none => rfl
      | some line =>
          have hh : str_has s "rtt" = true :=
            startswith_line_implies_has (List.mem_of_find?_eq_some hfind)
              (by simpa using List.find?_some hfind)
          unfold ping_from_node classify_ping_output at hno
          dsimp only at hno
          rw [if_pos hh, hfind] at hno
          dsimp only at hno
          cases hp : parse_rtt_line line with
          | none => rw [hp] at hno; exact absurd hno (by simp)
          | some t => rw [hp] at hno; exact absurd hno (by simp)
    · intro hnone
      unfold ping_from_node classify_ping_output
      dsimp only
      by_cases hh : str_has s "rtt"
      · rw [if_pos hh, hnone]
      · rw [if_neg hh]
  · intro line hline
    have hh : str_has s "rtt" = true :=
      startswith_line_implies_has (List.mem_of_find?_eq_some hline)
        (by simpa using List.find?_some hline)
    unfold ping_from_node classify_ping_output
    dsimp only
    rw [if_pos hh, hline]

/-- Witness for the amended C6 at a concrete input with no rtt line. -/
theorem classify_ping_output_spec_witness :
    (ping_from_node (CmdOutcome.output "64 bytes received") = PingOutcome.no_rtt ↔
      (py_splitlines "64 bytes received").find? (fun l => str_startswith l "rtt") = none) ∧
    (py_splitlines "64 bytes received").find? (fun l => str_startswith l "rtt") = none :=
  ⟨(classify_ping_output_spec "64 bytes received").1, by decide⟩

/-! Lemmas for the sampling machinery. -/

theorem take_draw_valid : DrawValid take_draw := by
  intro l k hk
  constructor
  · simpa [take_draw] using hk
  · exact (List.take_sublist k l).subperm

theorem py_sample_ok (draw : Draw) (l : List Node) {k : Int}
    (h0 : 0 ≤ k) (hk : k ≤ (l.length : Int)) :
    py_sample draw l k = .ok (draw l k.toNat) := by
  unfold py_sample
  rw [if_pos ⟨h0, hk⟩]

theorem py_sample_ok_inv {draw : Draw} {l : List Node} {k : Int} {res : List Node}
    (h : py_sample draw l k = .ok res) :
    0 ≤ k ∧ k ≤ (l.length : Int) ∧ res = draw l k.toNat := by
  unfold py_sample at h
  by_cases hc : 0 ≤ k ∧ k ≤ (l.length : Int)
  · rw [if_pos hc] at h
    cases h
    exact ⟨hc.1, hc.2, rfl⟩
  · rw [if_neg hc] at h
    cases h

theorem except_bind_ok {α β : Type} {x : Except Unit α} {f : α → Except Unit β} {v : β}
    (h : (x >>= f) = .ok v) : ∃ a, x = .ok a ∧ f a = .ok v := by
  cases x with
  | error e => simp [Bind.bind, Except.bind] at h
  | ok a => exact ⟨a, rfl, by simpa [Bind.bind, Except.bind] using h⟩

theorem mem_apply_filters (filters : Filters) (l : List Node) (n : Node) :
    n ∈ apply_filters filters l ↔ n ∈ l ∧ passes_filters filters n = true := by
  induction filters generalizing l with
  | nil => simp [apply_filters, passes_filters]
  | cons fv fs ih =>
      unfold apply_filters at ih ⊢
      rw [List.foldl_cons, ih]
      simp only [List.mem_filter, passes_filters, List.all_cons, Bool.and_eq_true]
      tauto

theorem mem_healthy_filtered {cache : List Node} {health : HealthMap} {filters : Filters}
    {n : Node} (h : n ∈ healthy_filtered cache health filters) :
    lookup_map health n.hostname = some Health.healthy ∧ passes_filters filters n = true := by
  unfold healthy_filtered at h
  by_cases hf : filters.isEmpty
  · rw [if_pos hf] at h
    rcases List.mem_filter.mp h with ⟨_, hh⟩
    refine ⟨of_decide_eq_true hh, ?_⟩
    cases filters with
    | nil => rfl
    | cons a b => simp at hf
  · rw [if_neg hf] at h
    rcases (mem_apply_filters filters _ n).mp h with ⟨h1, h2⟩
    rcases List.mem_filter.mp h1 with ⟨_, hh⟩
    exact ⟨of_decide_eq_true hh, h2⟩

theorem insert_group_flatten (gs : Groups) (k : List String) (n : Node) :
    List.Perm ((insert_group gs k n).map Prod.snd).flatten ((gs.map Prod.snd).flatten ++ [n]) := by
  induction gs with
  | nil => simp [insert_group]
  | cons p rest ih =>
      obtain ⟨k2, g⟩ := p
      unfold insert_group
      by_cases he : k2 = k
      · rw [if_pos he]
        simp only [List.map_cons, List.flatten_cons]
        rw [List.append_assoc, List.append_assoc]
        exact List.Perm.append_left g (List.perm_append_comm)
      · rw [if_neg he]
        simp only [List.map_cons, List.flatten_cons]
        rw [List.append_assoc]
        exact List.Perm.append_left g ih

theorem build_groups_go (bf : List FilterField) (nodes : List Node) :
    ∀ gs : Groups,
      List.Perm
        (((nodes.foldl (fun gs n => insert_group gs (bucket_key bf n) n) gs).map Prod.snd).flatten)
        ((gs.map Prod.snd).flatten ++ nodes) := by
  induction nodes with
  | nil => intro gs; simp
  | cons n rest ih =>
      intro gs
      rw [List.foldl_cons]
      have h1 := ih (insert_group gs (bucket_key bf n) n)
      have h2 := insert_group_flatten gs (bucket_key bf n) n
      refine h1.trans ?_
      refine (h2.append_right rest).trans ?_
      rw [List.append_assoc]
      rfl

theorem build_groups_flatten (bf : List FilterField) (nodes : List Node) :
    List.Perm ((build_groups bf nodes).map Prod.snd).flatten nodes := by
  simpa [build_groups] using build_groups_go bf nodes []

theorem flatten_perm {α : Type} {l1 l2 : List (List α)} (h : List.Perm l1 l2) :
    List.Perm l1.flatten l2.flatten := by
  induction h with
  | nil => rfl
  | cons x _ ih => simpa using ih.append_left x
  | swap x y l =>
      simp only [List.flatten_cons]
      rw [← List.append_assoc, ← List.append_assoc]
      exact (List.perm_append_comm).append_right _
  | trans _ _ ih1 ih2 => exact ih1.trans ih2

theorem subperm_append_both {α : Type} {a b c d : List α}
    (h1 : List.Subperm a c) (h2 : List.Subperm b d) : List.Subperm (a ++ b) (c ++ d) := by
  obtain ⟨a2, pa, sa⟩ := h1
  obtain ⟨b2, pb, sb⟩ := h2
  exact ⟨a2 ++ b2, pa.append pb, sa.append sb⟩

theorem subperm_nodup {α : Type} {res nodes : List α}
    (h : List.Subperm res nodes) (hnd : nodes.Nodup) : res.Nodup := by
  obtain ⟨r2, pr, sr⟩ := h
  exact (pr.nodup_iff).mp (hnd.sublist sr)

theorem quota_sum_closed (base rem : Int) (B : Nat) :
    ∀ i : Nat, quota_sum base rem i B = B * base + max 0 (min (rem - i) B) := by
  induction B with
  | zero =>
      intro i
      simp only [quota_sum, Nat.cast_zero, zero_mul, zero_add]
      omega
  | succ B ih =>
      intro i
      rw [quota_sum, ih (i + 1)]
      have hmul : ((B : Int) + 1) * base = (B : Int) * base + base := by ring
      by_cases hi : (i : Int) < rem
      · rw [if_pos hi]
        push_cast
        omega
      · rw [if_neg hi]
        push_cast
        omega

theorem quota_sum_total (L : Int) (B : Nat) (hB : 0 < B) :
    quota_sum (L.fdiv B) (L.fmod B) 0 B = L := by
  have hBpos : (0 : Int) < (B : Int) := by exact_mod_cast hB
  have hmod0 : 0 ≤ L.fmod B := Int.fmod_nonneg' L hBpos
  have hmodlt : L.fmod B < B := Int.fmod_lt_of_pos L hBpos
  have hsum := Int.fdiv_add_fmod L B
  rw [quota_sum_closed]
  omega

theorem draw_groups_spec (draw : Draw) (hd : DrawValid draw) (base rem : Int)
    (hb : 0 ≤ base) :
    ∀ (gs : Groups) (i : Nat),
      ∃ res short, draw_groups draw base rem i gs = .ok (res, short) ∧
        0 ≤ short ∧
        (res.length : Int) + short = quota_sum base rem i gs.length ∧
        List.Subperm res ((gs.map Prod.snd).flatten) := by
  intro gs
  induction gs with
  | nil =>
      intro i
      exact ⟨[], 0, rfl, le_refl 0, by simp [quota_sum], List.nil_subperm⟩
  | cons p rest ih =>
      intro i
      obtain ⟨k, g⟩ := p
      obtain ⟨res2, short2, hok2, hs2, hlen2, hsp2⟩ := ih (i + 1)
      have hq0 : 0 ≤ base + (if (i : Int) < rem then 1 else 0) := by
        by_cases hi : (i : Int) < rem <;> simp [hi] <;> omega
      have ht0 : 0 ≤ min (base + (if (i : Int) < rem then 1 else 0)) ((g.length : Int)) :=
        le_min hq0 (by positivity)
      have htle : min (base + (if (i : Int) < rem then 1 else 0)) ((g.length : Int))
          ≤ (g.length : Int) := min_le_right _ _
      have hsample := py_sample_ok draw g ht0 htle
      have htn : (min (base + (if (i : Int) < rem then 1 else 0)) ((g.length : Int))).toNat
          ≤ g.length := Int.toNat_le.mpr htle
      have hdl := hd g _ htn
      refine ⟨draw g (min (base + (if (i : Int) < rem then 1 else 0)) ((g.length : Int))).toNat
          ++ res2,
        ((base + (if (i : Int) < rem then 1 else 0)) -
          min (base + (if (i : Int) < rem then 1 else 0)) ((g.length : Int))) + short2,
        ?_, ?_, ?_, ?_⟩
      · show (do
          let s ← py_sample draw g
            (min (base + (if (i : Int) < rem then 1 else 0)) ((g.length : Int)))
          let pr ← draw_groups draw base rem (i + 1) rest
          Except.ok (s ++ pr.1,
            ((base + (if (i : Int) < rem then 1 else 0)) -
              min (base + (if (i : Int) < rem then 1 else 0)) ((g.length : Int))) + pr.2)
          : Except Unit (List Node × Int)) = _
        rw [hsample, hok2]
        rfl
      · have hmin := min_le_left (base + (if (i : Int) < rem then 1 else 0)) ((g.length : Int))
        omega
      · simp only [List.length_cons]
        rw [quota_sum]
        have hcast : ((min (base + (if (i : Int) < rem then 1 else 0))
            ((g.length : Int))).toNat : Int) =
            min (base + (if (i : Int) < rem then 1 else 0)) ((g.length : Int)) :=
          Int.toNat_of_nonneg ht0
        rw [List.length_append, hdl.1]
        push_cast
        omega
      · simp only [List.map_cons, List.flatten_cons]
        exact subperm_append_both hdl.2 hsp2

theorem draw_groups_ok_subperm (draw : Draw) (hd : DrawValid draw) (base rem : Int) :
    ∀ (gs : Groups) (i : Nat) (res : List Node) (short : Int),
      draw_groups draw base rem i gs = .ok (res, short) →
      List.Subperm res ((gs.map Prod.snd).flatten) := by
  intro gs
  induction gs with
  | nil =>
      intro i res short h
      cases h
      exact List.nil_subperm
  | cons p rest ih =>
      intro i res short h
      obtain ⟨k, g⟩ := p
      have h2 : ((py_sample draw g
            (min (base + (if (i : Int) < rem then 1 else 0)) ((g.length : Int)))) >>=
          fun s => (draw_groups draw base rem (i + 1) rest) >>=
            fun pr => Except.ok (s ++ pr.1,
              ((base + (if (i : Int) < rem then 1 else 0)) -
                min (base + (if (i : Int) < rem then 1 else 0)) ((g.length : Int))) + pr.2))
          = Except.ok (res, short) := h
      obtain ⟨s, hs, h3⟩ := except_bind_ok h2
      obtain ⟨pr, hpr, h4⟩ := except_bind_ok h3
      obtain ⟨_, hkle, hseq⟩ := py_sample_ok_inv hs
      cases h4
      simp only [List.map_cons, List.flatten_cons]
      refine subperm_append_both ?_ ?_
      · rw [hseq]
        exact (hd g _ (Int.toNat_le.mpr hkle)).2
      · obtain ⟨p1, p2⟩ := pr
        exact ih (i + 1) p1 p2 hpr

theorem filter_not_mem_length {res1 nodes : List Node}
    (hnd : nodes.Nodup) (hsp : List.Subperm res1 nodes) :
    (nodes.filter (fun n => decide (n ∉ res1))).length = nodes.length - res1.length := by
  have hsplit := List.length_eq_length_filter_add (l := nodes) (fun n => decide (n ∈ res1))
  have hneg : (nodes.filter (fun n => !(decide (n ∈ res1)))) =
      (nodes.filter (fun n => decide (n ∉ res1))) := by
    apply List.filter_congr
    intro x _
    simp [decide_not]
  rw [hneg] at hsplit
  have hperm : List.Perm (nodes.filter (fun n => decide (n ∈ res1))) res1 := by
    rw [List.perm_ext_iff_of_nodup (hnd.filter _) (subperm_nodup hsp hnd)]
    intro x
    simp only [List.mem_filter, decide_eq_true_eq]
    constructor
    · exact fun h => h.2
    · exact fun h => ⟨hsp.subset h, h⟩
  have hlen := hperm.length_eq
  omega

theorem balanced_sample_ok_subset {draw : Draw} {nodes : List Node} {L : Int}
    {filters : Filters} {shuffled : Groups} {res : List Node}
    (hd : DrawValid draw)
    (hsh : List.Perm shuffled (build_groups (balance_fields filters) nodes))
    (hok : balanced_sample draw nodes L filters shuffled = .ok res) :
    res ⊆ nodes := by
  unfold balanced_sample at hok
  by_cases hbf : (balance_fields filters).isEmpty
  · rw [if_pos hbf] at hok
    obtain ⟨_, hle, heq⟩ := py_sample_ok_inv hok
    rw [heq]
    exact ((hd nodes _ (Int.toNat_le.mpr hle)).2).subset
  · rw [if_neg hbf] at hok
    by_cases hB : ((shuffled.length : Int)) = 0
    · rw [if_pos hB] at hok; cases hok
    · rw [if_neg hB] at hok
      obtain ⟨pr, hpr, hrest⟩ := except_bind_ok hok
      obtain ⟨res1, short⟩ := pr
      have hflat : List.Perm ((shuffled.map Prod.snd).flatten) nodes :=
        (flatten_perm (List.Perm.map Prod.snd hsh)).trans (build_groups_flatten _ _)
      have hsub1 : res1 ⊆ nodes := by
        have hgs := draw_groups_ok_subperm draw hd _ _ shuffled 0 res1 short hpr
        exact fun x hx => hflat.mem_iff.mp (hgs.subset hx)
      by_cases hshort : 0 < short
      · rw [if_pos hshort] at hrest
        by_cases hrem : (nodes.filter (fun n => decide (n ∉ res1))).isEmpty
        · rw [if_pos hrem] at hrest
          cases hrest
          exact hsub1
        · rw [if_neg hrem] at hrest
          obtain ⟨fill, hfill, hfin⟩ := except_bind_ok hrest
          cases hfin
          obtain ⟨_, hfle, hfeq⟩ := py_sample_ok_inv hfill
          intro x hx
          rcases List.mem_append.mp hx with hx | hx
          · exact hsub1 hx
          · rw [hfeq] at hx
            have hxr := ((hd _ _ (Int.toNat_le.mpr hfle)).2).subset hx
            exact (List.mem_filter.mp hxr).1
      · rw [if_neg hshort] at hrest
        cases hrest
        exact hsub1

theorem balanced_sample_core {draw : Draw} {nodes : List Node} {L : Int}
    {filters : Filters} {shuffled : Groups}
    (hd : DrawValid draw) (h0 : 0 ≤ L) (hlt : L < (nodes.length : Int))
    (hsh : List.Perm shuffled (build_groups (balance_fields filters) nodes)) :
    ∃ res, balanced_sample draw nodes L filters shuffled = .ok res ∧
      (res.length : Int) ≤ L ∧
      (nodes.Nodup → (res.length : Int) = L ∧ res.Nodup) := by
  unfold balanced_sample
  by_cases hbf : (balance_fields filters).isEmpty
  · rw [if_pos hbf]
    have hs := py_sample_ok draw nodes h0 (le_of_lt hlt)
    have hdl := hd nodes L.toNat (Int.toNat_le.mpr (le_of_lt hlt))
    refine ⟨draw nodes L.toNat, hs, ?_, ?_⟩
    · rw [hdl.1, Int.toNat_of_nonneg h0]
    · intro hnd
      exact ⟨by rw [hdl.1, Int.toNat_of_nonneg h0], subperm_nodup hdl.2 hnd⟩
  · rw [if_neg hbf]
    have hflat : List.Perm ((shuffled.map Prod.snd).flatten) nodes :=
      (flatten_perm (List.Perm.map Prod.snd hsh)).trans (build_groups_flatten _ _)
    have hnlen : 0 < nodes.length := by
      by_contra hc
      push_neg at hc
      have hz : (nodes.length : Int) = 0 := by
        exact_mod_cast Nat.le_zero.mp hc
      omega
    have hB : ¬ ((shuffled.length : Int) = 0) := by
      intro hz
      have hz2 : shuffled = [] := List.length_eq_zero.mp (by exact_mod_cast hz)
      rw [hz2] at hflat
      have := hflat.length_eq
      simp at this
      omega
    rw [if_neg hB]
    have hBpos : 0 < shuffled.length := by
      rcases Nat.eq_zero_or_pos shuffled.length with hz | hp
      · exact absurd (by exact_mod_cast hz) hB
      · exact hp
    have hbase : 0 ≤ L.fdiv (shuffled.length : Int) :=
      Int.fdiv_nonneg h0 (by positivity)
    obtain ⟨res1, short, hok1, hs0, hlen1, hsp1⟩ :=
      draw_groups_spec draw hd (L.fdiv (shuffled.length : Int))
        (L.fmod (shuffled.length : Int)) hbase shuffled 0
    rw [quota_sum_total L shuffled.length hBpos] at hlen1
    have hsub1 : List.Subperm res1 nodes := hsp1.trans hflat.subperm
    by_cases hshort : 0 < short
    · by_cases hrem : (nodes.filter (fun n => decide (n ∉ res1))).isEmpty
      · refine ⟨res1, ?_, by omega, ?_⟩
        · show ((draw_groups draw (L.fdiv (shuffled.length : Int))
              (L.fmod (shuffled.length : Int)) 0 shuffled) >>= fun pr =>
              if 0 < pr.2 then
                if (nodes.filter (fun n => decide (n ∉ pr.1))).isEmpty then Except.ok pr.1
                else (py_sample draw (nodes.filter (fun n => decide (n ∉ pr.1)))
                    (min pr.2 ((nodes.filter (fun n => decide (n ∉ pr.1))).length : Int)))
                  >>= fun fill => Except.ok (pr.1 ++ fill)
              else Except.ok pr.1) = Except.ok res1
          rw [hok1]
          show (if 0 < short then
              if (nodes.filter (fun n => decide (n ∉ res1))).isEmpty then Except.ok res1
              else (py_sample draw (nodes.filter (fun n => decide (n ∉ res1)))
                  (min short ((nodes.filter (fun n => decide (n ∉ res1))).length : Int)))
                >>= fun fill => Except.ok (res1 ++ fill)
            else Except.ok res1) = Except.ok res1
          rw [if_pos hshort, if_pos hrem]
        · intro hnd
          exfalso
          have hcnt := filter_not_mem_length hnd hsub1
          have hrl : (nodes.filter (fun n => decide (n ∉ res1))).length = 0 :=
            List.isEmpty_iff_length_eq_zero.mp hrem
          have hr1n : res1.length ≤ nodes.length := hsub1.length_le
          omega
      · have hk0 : 0 ≤ min short ((nodes.filter (fun n => decide (n ∉ res1))).length : Int) :=
          le_min (le_of_lt hshort) (by positivity)
        have hkle : min short ((nodes.filter (fun n => decide (n ∉ res1))).length : Int)
            ≤ ((nodes.filter (fun n => decide (n ∉ res1))).length : Int) := min_le_right _ _
        have hfs := py_sample_ok draw (nodes.filter (fun n => decide (n ∉ res1))) hk0 hkle
        have hfdl := hd (nodes.filter (fun n => decide (n ∉ res1))) _ (Int.toNat_le.mpr hkle)
        refine ⟨res1 ++ draw (nodes.filter (fun n => decide (n ∉ res1)))
            (min short ((nodes.filter (fun n => decide (n ∉ res1))).length : Int)).toNat,
          ?_, ?_, ?_⟩
        · show ((draw_groups draw (L.fdiv (shuffled.length : Int))
              (L.fmod (shuffled.length : Int)) 0 shuffled) >>= fun pr =>
              if 0 < pr.2 then
                if (nodes.filter (fun n => decide (n ∉ pr.1))).isEmpty then Except.ok pr.1
                else (py_sample draw (nodes.filter (fun n => decide (n ∉ pr.1)))
                    (min pr.2 ((nodes.filter (fun n => decide (n ∉ pr.1))).length : Int)))
                  >>= fun fill => Except.ok (pr.1 ++ fill)
              else Except.ok pr.1) = _
          rw [hok1]
          show (if 0 < short then
              if (nodes.filter (fun n => decide (n ∉ res1))).isEmpty then Except.ok res1
              else (py_sample draw (nodes.filter (fun n => decide (n ∉ res1)))
                  (min short ((nodes.filter (fun n => decide (n ∉ res1))).length : Int)))
                >>= fun fill => Except.ok (res1 ++ fill)
            else Except.ok res1) = _
          rw [if_pos hshort, if_neg hrem, hfs]
          rfl
        · rw [List.length_append, hfdl.1]
          have hc1 : ((min short
              ((nodes.filter (fun n => decide (n ∉ res1))).length : Int)).toNat : Int) =
              min short ((nodes.filter (fun n => decide (n ∉ res1))).length : Int) :=
            Int.toNat_of_nonneg hk0
          push_cast
          omega
        · intro hnd
          have hcnt := filter_not_mem_length hnd hsub1
          have hr1n : res1.length ≤ nodes.length := hsub1.length_le
          have hminr : min short ((nodes.filter (fun n => decide (n ∉ res1))).length : Int)
              = short := by
            apply min_eq_left
            rw [hcnt]
            push_cast [Nat.cast_sub hr1n]
            omega
          constructor
          · rw [List.length_append, hfdl.1]
            have hc1 : ((min short
                ((nodes.filter (fun n => decide (n ∉ res1))).length : Int)).toNat : Int) =
                min short ((nodes.filter (fun n => decide (n ∉ res1))).length : Int) :=
              Int.toNat_of_nonneg hk0
            push_cast
            omega
          · have hnd1 : res1.Nodup := subperm_nodup hsub1 hnd
            have hndf : (nodes.filter (fun n => decide (n ∉ res1))).Nodup := hnd.filter _
            have hndfill := subperm_nodup hfdl.2 hndf
            refine List.Nodup.append hnd1 hndfill ?_
            intro a ha hafill
            have har := hfdl.2.subset hafill
            have := (List.mem_filter.mp har).2
            simp only [decide_eq_true_eq] at this
            exact this ha
    · refine ⟨res1, ?_, by omega, ?_⟩
      · show ((draw_groups draw (L.fdiv (shuffled.length : Int))
            (L.fmod (shuffled.length : Int)) 0 shuffled) >>= fun pr =>
            if 0 < pr.2 then
              if (nodes.filter (fun n => decide (n ∉ pr.1))).isEmpty then Except.ok pr.1
              else (py_sample draw (nodes.filter (fun n => decide (n ∉ pr.1)))
                  (min pr.2 ((nodes.filter (fun n => decide (n ∉ pr.1))).length : Int)))
                >>= fun fill => Except.ok (pr.1 ++ fill)
            else Except.ok pr.1) = Except.ok res1
        rw [hok1]
        show (if 0 < short then
            if (nodes.filter (fun n => decide (n ∉ res1))).isEmpty then Except.ok res1
            else (py_sample draw (nodes.filter (fun n => decide (n ∉ res1)))
                (min short ((nodes.filter (fun n => decide (n ∉ res1))).length : Int)))
              >>= fun fill => Except.ok (res1 ++ fill)
          else Except.ok res1) = Except.ok res1
        rw [if_neg hshort]
      · intro hnd
        exact ⟨by omega, subperm_nodup hsub1 hnd⟩

theorem fetch_ok_subset {draw : Draw} {shuffled : Groups} {cache : List Node}
    {health : HealthMap} {limit : Option Int} {filters : Filters} {res : List Node}
    (hd : DrawValid draw)
    (hsh : List.Perm shuffled (build_groups (balance_fields filters)
      (healthy_filtered cache health filters)))
    (hok : fetch_healthy_nodes draw shuffled cache health limit filters = .ok res) :
    res ⊆ healthy_filtered cache health filters := by
  unfold fetch_healthy_nodes at hok
  cases limit with
  | none =>
      cases hok
      exact fun x hx => hx
  | some L =>
      dsimp only at hok
      by_cases hlt : L < ((healthy_filtered cache health filters).length : Int)
      · rw [if_pos hlt] at hok
        by_cases hf : filters.isEmpty
        · rw [if_pos hf] at hok
          obtain ⟨_, hle, heq⟩ := py_sample_ok_inv hok
          rw [heq]
          exact ((hd _ _ (Int.toNat_le.mpr hle)).2).subset
        · rw [if_neg hf] at hok
          exact balanced_sample_ok_subset hd hsh hok
      · rw [if_neg hlt] at hok
        cases hok
        exact fun x hx => hx

/-- C2: `_balanced_sample`, called with `0 ≤ limit < len(nodes)` (as
`fetch_healthy_nodes` guarantees), returns exactly
`min(limit, len(nodes))` records with no duplicates, for every node list,
limit and filter map, and for every behaviour of `random.shuffle`
(`shuffled`, any permutation of the bucket list) and `random.sample`
(`draw`, any valid sampling-without-replacement oracle).  The `Nodup`
hypothesis mirrors the fact that the node dicts in the Python list are
pairwise-distinct objects (the `id(n)`-based bookkeeping of the source
distinguishes objects, which the value-level model renders as
distinctness). -/
theorem balanced_sample_exact (draw : Draw) (nodes : List Node) (L : Int)
    (filters : Filters) (shuffled : Groups)
    (hd : DrawValid draw) (hnd : nodes.Nodup) (h0 : 0 ≤ L)
    (hlt : L < (nodes.length : Int))
    (hsh : List.Perm shuffled (build_groups (balance_fields filters) nodes)) :
    except_check (balanced_sample draw nodes L filters shuffled)
      (fun res => decide (res.length = min L.toNat nodes.length) && nodup_b res) = true := by
  obtain ⟨res, hok, _, hnd2⟩ := balanced_sample_core hd h0 hlt hsh
  obtain ⟨hlen, hnodup⟩ := hnd2 hnd
  rw [hok]
  unfold except_check nodup_b
  have h1 : res.length = min L.toNat nodes.length := by omega
  simp [h1, hnodup]

/-- Witness for C2 at a concrete input: three records, limit 2, a
two-valued continent filter, the identity shuffle and the take-first
draw. -/
theorem balanced_sample_exact_witness :
    except_check (balanced_sample take_draw [wn1, wn2, wn3] 2 wfilters
        (build_groups (balance_fields wfilters) [wn1, wn2, wn3]))
      (fun res => decide (res.length = min (Int.toNat 2) [wn1, wn2, wn3].length) &&
        nodup_b res) = true :=
  balanced_sample_exact take_draw [wn1, wn2, wn3] 2 wfilters
    (build_groups (balance_fields wfilters) [wn1, wn2, wn3])
    take_draw_valid (by decide) (by decide) (by decide) (List.Perm.refl _)

/-- Counterexample to C3: with one healthy cached node and `limit = -1`
(which the route does not reject, see C5), `fetch_healthy_nodes` does not
return a list at all: `random.sample` raises `ValueError`, modelled as
`.error ()`. -/
theorem fetch_negative_limit_raises :
    fetch_healthy_nodes take_draw [] [wn1] [("a.ring.nlnog.net", Health.healthy)]
      (some (-1)) [] = .error () ∧
    except_check (fetch_healthy_nodes take_draw [] [wn1]
        [("a.ring.nlnog.net", Health.healthy)] (some (-1)) [])
      (fun res => decide ((res.length : Int) ≤ -1)) = false := by
  exact ⟨rfl, rfl⟩

/-- C3 (amended): for every non-negative limit `L`, `fetch_healthy_nodes`
returns (does not raise) a list of at most `L` records, each of whose
hostname is labelled healthy and which passes every supplied filter. -/
theorem fetch_healthy_nodes_spec (draw : Draw) (shuffled : Groups) (cache : List Node)
    (health : HealthMap) (L : Int) (filters : Filters)
    (hd : DrawValid draw) (h0 : 0 ≤ L)
    (hsh : List.Perm shuffled (build_groups (balance_fields filters)
      (healthy_filtered cache health filters))) :
    except_check (fetch_healthy_nodes draw shuffled cache health (some L) filters)
      (fun res => decide ((res.length : Int) ≤ L) &&
        res.all (fun n => decide (lookup_map health n.hostname = some Health.healthy) &&
          passes_filters filters n)) = true := by
  have hmain : ∃ res,
      fetch_healthy_nodes draw shuffled cache health (some L) filters = .ok res ∧
      (res.length : Int) ≤ L := by
    unfold fetch_healthy_nodes
    dsimp only
    by_cases hlt : L < ((healthy_filtered cache health filters).length : Int)
    · rw [if_pos hlt]
      by_cases hf : filters.isEmpty
      · rw [if_pos hf]
        have hdl := hd (healthy_filtered cache health filters) L.toNat
          (Int.toNat_le.mpr (le_of_lt hlt))
        refine ⟨_, py_sample_ok draw _ h0 (le_of_lt hlt), ?_⟩
        rw [hdl.1, Int.toNat_of_nonneg h0]
      · rw [if_neg hf]
        obtain ⟨res, hok, hle, _⟩ := balanced_sample_core hd h0 hlt hsh
        exact ⟨res, hok, hle⟩
    · rw [if_neg hlt]
      exact ⟨_, rfl, by omega⟩
  obtain ⟨res, hok, hle⟩ := hmain
  rw [hok]
  unfold except_check
  have hall : res.all (fun n => decide (lookup_map health n.hostname = some Health.healthy) &&
      passes_filters filters n) = true := by
    rw [List.all_eq_true]
    intro n hn
    obtain ⟨hh, hp⟩ := mem_healthy_filtered (fetch_ok_subset hd hsh hok hn)
    simp [hh, hp]
  simp [hle, hall]

/-- Witness for the amended C3 at a concrete input: three healthy
records, limit 2, a two-valued continent filter. -/
theorem fetch_healthy_nodes_spec_witness :
    except_check (fetch_healthy_nodes take_draw
        (build_groups (balance_fields wfilters)
          (healthy_filtered [wn1, wn2, wn3] whealth wfilters))
        [wn1, wn2, wn3] whealth (some 2) wfilters)
      (fun res => decide ((res.length : Int) ≤ 2) &&
        res.all (fun n => decide (lookup_map whealth n.hostname = some Health.healthy) &&
          passes_filters wfilters n)) = true :=
  fetch_healthy_nodes_spec take_draw
    (build_groups (balance_fields wfilters)
      (healthy_filtered [wn1, wn2, wn3] whealth wfilters))
    [wn1, wn2, wn3] whealth 2 wfilters
    take_draw_valid (by decide) (List.Perm.refl _)

/-- C10: when a node's value for a non-`node` filter field is missing or
`None`, `_node_field_value` returns the empty string, and under
`fetch_healthy_nodes` the node is excluded from every returned list for
any supplied filter on that field whose allowed-value set does not
contain the empty string. -/
theorem missing_field_value_empty_excluded (n : Node) (f : FilterField)
    (allowed : List String) (filters : Filters) (cache : List Node) (health : HealthMap)
    (limit : Option Int) (draw : Draw) (shuffled : Groups)
    (hf : f ≠ FilterField.node) (hmiss : node_get n f = none)
    (hmem : (f, allowed) ∈ filters) (hno : "" ∉ allowed)
    (hd : DrawValid draw)
    (hsh : List.Perm shuffled (build_groups (balance_fields filters)
      (healthy_filtered cache health filters))) :
    node_field_value n f = "" ∧
    except_all (fetch_healthy_nodes draw shuffled cache health limit filters)
      (fun m => decide (m ≠ n)) = true := by
  have hval : node_field_value n f = "" := by
    cases f with
    | node => exact absurd rfl hf
    | asn =>
        rw [show node_field_value n FilterField.asn
          = (node_get n FilterField.asn).getD "" from rfl, hmiss]
        rfl
    | city =>
        rw [show node_field_value n FilterField.city
          = (node_get n FilterField.city).getD "" from rfl, hmiss]
        rfl
    | countrycode =>
        rw [show node_field_value n FilterField.countrycode
          = (node_get n FilterField.countrycode).getD "" from rfl, hmiss]
        rfl
    | continent =>
        rw [show node_field_value n FilterField.continent
          = (node_get n FilterField.continent).getD "" from rfl, hmiss]
        rfl
    | company =>
        rw [show node_field_value n FilterField.company
          = (node_get n FilterField.company).getD "" from rfl, hmiss]
        rfl
  refine ⟨hval, ?_⟩
  unfold except_all
  cases hok : fetch_healthy_nodes draw shuffled cache health limit filters with
  | error e => rfl
  | ok res =>
      rw [List.all_eq_true]
      intro m hm
      simp only [decide_eq_true_eq]
      intro heq
      subst heq
      obtain ⟨_, hp⟩ := mem_healthy_filtered (fetch_ok_subset hd hsh hok hm)
      unfold passes_filters at hp
      rw [List.all_eq_true] at hp
      have hpf := hp (f, allowed) hmem
      simp only [decide_eq_true_eq] at hpf
      rw [hval] at hpf
      exact hno (by simpa [py_lower] using hpf)

/-- Witness for C10 at a concrete input: a cached healthy node whose
city is `None`, with a city filter not containing the empty string. -/
theorem missing_field_value_empty_excluded_witness :
    node_field_value wn_miss FilterField.city = "" ∧
    except_all (fetch_healthy_nodes take_draw
        (build_groups (balance_fields wfilters_city)
          (healthy_filtered [wn_miss] [("m.ring.nlnog.net", Health.healthy)] wfilters_city))
        [wn_miss] [("m.ring.nlnog.net", Health.healthy)] none wfilters_city)
      (fun m => decide (m ≠ wn_miss)) = true :=
  missing_field_value_empty_excluded wn_miss FilterField.city
    ["amsterdam", "berlin"] wfilters_city [wn_miss]
    [("m.ring.nlnog.net", Health.healthy)] none take_draw
    (build_groups (balance_fields wfilters_city)
      (healthy_filtered [wn_miss] [("m.ring.nlnog.net", Health.healthy)] wfilters_city))
    (by decide) (by decide) (by decide) (by decide)
    take_draw_valid (List.Perm.refl _)

/-! Lemmas for the startup-restore / parallel-start path. -/

theorem lookup_upd_ne {m : HealthMap} {k h : String} {v : Health} (hne : k ≠ h) :
    lookup_map (upd_map m k v) h = lookup_map m h := by
  induction m with
  | nil => simp [upd_map, lookup_map, hne]
  | cons p rest ih =>
      obtain ⟨k2, v2⟩ := p
      unfold upd_map
      by_cases he : k2 = k
      · rw [if_pos he]
        subst he
        simp [lookup_map, hne]
      · rw [if_neg he]
        unfold lookup_map
        by_cases h2 : k2 = h <;> simp [h2, ih]

theorem health_fold_lookup_none (h : String) :
    ∀ (trace : List (String × Bool)) (hm : HealthMap),
      (∀ p ∈ trace, p.1 ≠ h) → lookup_map hm h = none →
      lookup_map (trace.foldl
        (fun hm hb => if hb.2 then upd_map hm hb.1 Health.healthy else hm) hm) h = none := by
  intro trace
  induction trace with
  | nil => intro hm _ h0; exact h0
  | cons p rest ih =>
      intro hm hne h0
      rw [List.foldl_cons]
      refine ih _ (fun q hq => hne q (List.mem_cons_of_mem _ hq)) ?_
      by_cases hp : p.2 = true
      · rw [if_pos hp, lookup_upd_ne (hne p (List.mem_cons_self _ _))]
        exact h0
      · rw [if_neg hp]
        exact h0

theorem ssp_go (spawn : String → Bool) :
    ∀ (ts : List String) (st : List String × List (String × Bool)),
      (((ts.foldl (fun st h =>
          let r := start_session st.1 h (spawn h)
          (r.1, st.2 ++ [(h, r.2)])) st).2).map Prod.fst = st.2.map Prod.fst ++ ts) ∧
      (∀ x ∈ st.1, x ∈ (ts.foldl (fun st h =>
          let r := start_session st.1 h (spawn h)
          (r.1, st.2 ++ [(h, r.2)])) st).1) := by
  intro ts
  induction ts with
  | nil => intro st; exact ⟨by simp, fun x hx => hx⟩
  | cons t rest ih =>
      intro st
      rw [List.foldl_cons]
      constructor
      · have h1 := (ih ((start_session st.1 t (spawn t)).1,
          st.2 ++ [(t, (start_session st.1 t (spawn t)).2)])).1
        rw [h1]
        simp
      · intro x hx
        exact (ih _).2 x (mem_start_session_final hx)

theorem start_sessions_parallel_spec (active : List String) (hostnames : List String)
    (spawn : String → Bool) :
    ((start_sessions_parallel active hostnames spawn).2).map Prod.fst =
      hostnames.dedup.filter (fun h => decide (h ∉ active)) ∧
    ∀ x ∈ active, x ∈ (start_sessions_parallel active hostnames spawn).1 := by
  unfold start_sessions_parallel
  constructor
  · have h1 := (ssp_go spawn (hostnames.dedup.filter (fun h => decide (h ∉ active)))
      (active, [])).1
    simpa using h1
  · intro x hx
    exact (ssp_go spawn _ (active, [])).2 x hx

theorem fetch_excludes_unlabelled {draw : Draw} {shuffled : Groups} {cache : List Node}
    {health : HealthMap} {limit : Option Int} {filters : Filters} {h : String}
    (hd : DrawValid draw)
    (hsh : List.Perm shuffled (build_groups (balance_fields filters)
      (healthy_filtered cache health filters)))
    (hnone : lookup_map health h = none) :
    except_all (fetch_healthy_nodes draw shuffled cache health limit filters)
      (fun m => decide (m.hostname ≠ h)) = true := by
  unfold except_all
  cases hok : fetch_healthy_nodes draw shuffled cache health limit filters with
  | error e => rfl
  | ok res =>
      rw [List.all_eq_true]
      intro m hm
      simp only [decide_eq_true_eq]
      intro heq
      obtain ⟨hh, _⟩ := mem_healthy_filtered (fetch_ok_subset hd hsh hok hm)
      rw [heq, hnone] at hh
      cases hh

/-- C9: a hostname already present in `active_sessions` when
`start_sessions_parallel` is called — in particular one adopted by
`cleanup_stale_sockets` during startup — is excluded from the set started
by `start_sessions_parallel`, never appears in the progress-callback
trace, and after `startup_restore_sessions` is still present in
`active_sessions` but has no HealthState entry, so `fetch_healthy_nodes`
never returns a record with that hostname until a later refresh labels
it. -/
theorem adopted_host_kept_out_of_startup (getContinent : String → String)
    (active0 : List String) (pre : String) (entries : List String)
    (probe : String → Option Bool) (cached : Option (List Node))
    (api : Option (List RawNode × Participants)) (spawn : String → Bool)
    (h : String) (draw : Draw) (shuffled : Groups) (limit : Option Int) (filters : Filters)
    (st : StartupResult)
    (hst : startup_restore_sessions getContinent active0 pre entries probe cached api spawn = st)
    (hmem : h ∈ cleanup_stale_sockets active0 pre entries probe)
    (hd : DrawValid draw)
    (hsh : List.Perm shuffled (build_groups (balance_fields filters)
      (healthy_filtered st.cache st.health filters))) :
    st.trace.all (fun p => decide (p.1 ≠ h)) = true ∧
    h ∈ st.active ∧
    lookup_map st.health h = none ∧
    except_all (fetch_healthy_nodes draw shuffled st.cache st.health limit filters)
      (fun m => decide (m.hostname ≠ h)) = true := by
  have hcore : st.trace.all (fun p => decide (p.1 ≠ h)) = true ∧
      h ∈ st.active ∧ lookup_map st.health h = none := by
    subst hst
    unfold startup_restore_sessions
    have hgen : ∀ ns : List Node,
        (let hostnames := ns.map Node.hostname
         let stp := start_sessions_parallel
           (cleanup_stale_sockets active0 pre entries probe) hostnames spawn
         let health := stp.2.foldl
           (fun hm hb => if hb.2 then upd_map hm hb.1 Health.healthy else hm) []
         (StartupResult.mk stp.1 health ns stp.2).trace.all
             (fun p => decide (p.1 ≠ h)) = true ∧
           h ∈ (StartupResult.mk stp.1 health ns stp.2).active ∧
           lookup_map (StartupResult.mk stp.1 health ns stp.2).health h = none) := by
      intro ns
      obtain ⟨htr, hpres⟩ := start_sessions_parallel_spec
        (cleanup_stale_sockets active0 pre entries probe) (ns.map Node.hostname) spawn
      have hall : ∀ p ∈ (start_sessions_parallel
          (cleanup_stale_sockets active0 pre entries probe)
          (ns.map Node.hostname) spawn).2, p.1 ≠ h := by
        intro p hp heq
        have hmap : p.1 ∈ ((start_sessions_parallel
            (cleanup_stale_sockets active0 pre entries probe)
            (ns.map Node.hostname) spawn).2).map Prod.fst :=
          List.mem_map_of_mem Prod.fst hp
        rw [htr] at hmap
        have hnotin := (List.mem_filter.mp hmap).2
        simp only [decide_eq_true_eq] at hnotin
        exact hnotin (heq ▸ hmem)
      refine ⟨?_, hpres h hmem, ?_⟩
      · rw [List.all_eq_true]
        intro p hp
        simpa using hall p hp
      · exact health_fold_lookup_none h _ [] hall rfl
    cases api with
    | some rp =>
        simpa using hgen (filter_api_nodes getContinent rp.2 rp.1)
    | none =>
        cases cached with
        | some ns => simpa using hgen ns
        | none => exact ⟨rfl, hmem, rfl⟩
  exact ⟨hcore.1, hcore.2.1, hcore.2.2,
    fetch_excludes_unlabelled hd hsh hcore.2.2⟩

/-- Witness for C9 at a concrete startup: the socket for
`adopted.ring.nlnog.net` is adopted, the roster start never touches it,
and it is absent from health and from fetch results. -/
theorem adopted_host_kept_out_of_startup_witness :
    wstartup.trace.all (fun p => decide (p.1 ≠ "adopted.ring.nlnog.net")) = true ∧
    "adopted.ring.nlnog.net" ∈ wstartup.active ∧
    lookup_map wstartup.health "adopted.ring.nlnog.net" = none ∧
    except_all (fetch_healthy_nodes take_draw
        (build_groups (balance_fields ([] : Filters))
          (healthy_filtered wstartup.cache wstartup.health ([] : Filters)))
        wstartup.cache wstartup.health none ([] : Filters))
      (fun m => decide (m.hostname ≠ "adopted.ring.nlnog.net")) = true :=
  adopted_host_kept_out_of_startup (fun _ => "Europe") [] "nlnog-"
    ["nlnog-rise@adopted.ring.nlnog.net:22"] (fun _ => some true) none
    (some ([wraw], [(1, "C1")])) (fun _ => true) "adopted.ring.nlnog.net"
    take_draw
    (build_groups (balance_fields ([] : Filters))
      (healthy_filtered wstartup.cache wstartup.health ([] : Filters)))
    none ([] : Filters) wstartup rfl (by decide) take_draw_valid (List.Perm.refl _)

/-! Negative limits: the parse step of the probe route and the fate of a
negative parsed limit in fetch_healthy_nodes. -/

theorem draw_groups_neg_error (draw : Draw) (base rem : Int) (hbase : base < 0) :
    ∀ (gs : Groups) (i : Nat), gs ≠ [] → rem ≤ (i : Int) + (gs.length : Int) - 1 →
      draw_groups draw base rem i gs = .error () := by
  intro gs
  induction gs with
  | nil => intro i hne _; exact absurd rfl hne
  | cons p rest ih =>
      intro i _ hrem
      obtain ⟨k, g⟩ := p
      cases rest with
      | nil =>
          have hq : ¬ ((i : Int) < rem) := by
            simp only [List.length_cons, List.length_nil] at hrem
            push_cast at hrem
            omega
          have hps : py_sample draw g
              (min (base + (if (i : Int) < rem then 1 else 0)) ((g.length : Int))) =
              .error () := by
            unfold py_sample
            rw [if_neg]
            rintro ⟨h1, _⟩
            rw [if_neg hq] at h1
            have hmin : min (base + 0) ((g.length : Int)) ≤ base + 0 := min_le_left _ _
            omega
          show (do
            let s ← py_sample draw g
              (min (base + (if (i : Int) < rem then 1 else 0)) ((g.length : Int)))
            let pr ← draw_groups draw base rem (i + 1) []
            Except.ok (s ++ pr.1,
              ((base + (if (i : Int) < rem then 1 else 0)) -
                min (base + (if (i : Int) < rem then 1 else 0)) ((g.length : Int))) + pr.2)
            : Except Unit (List Node × Int)) = _
          rw [hps]
          rfl
      | cons q rest2 =>
          have hrem2 : rem ≤ ((i + 1 : Nat) : Int) + ((q :: rest2).length : Int) - 1 := by
            simp only [List.length_cons] at hrem ⊢
            push_cast at hrem ⊢
            omega
          have hrec := ih (i + 1) (List.cons_ne_nil q rest2) hrem2
          show (do
            let s ← py_sample draw g
              (min (base + (if (i : Int) < rem then 1 else 0)) ((g.length : Int)))
            let pr ← draw_groups draw base rem (i + 1) (q :: rest2)
            Except.ok (s ++ pr.1,
              ((base + (if (i : Int) < rem then 1 else 0)) -
                min (base + (if (i : Int) < rem then 1 else 0)) ((g.length : Int))) + pr.2)
            : Except Unit (List Node × Int)) = _
          cases hps : py_sample draw g
              (min (base + (if (i : Int) < rem then 1 else 0)) ((g.length : Int))) with
          | error e =>
              rfl
          | ok s =>
              rw [hrec]
              rfl

theorem balanced_sample_neg_error (draw : Draw) (nodes : List Node) {limit : Int}
    (filters : Filters) (shuffled : Groups) (hL : limit < 0) :
    balanced_sample draw nodes limit filters shuffled = .error () := by
  unfold balanced_sample
  by_cases hbf : (balance_fields filters).isEmpty
  · rw [if_pos hbf]
    unfold py_sample
    rw [if_neg (by rintro ⟨h1, _⟩; omega)]
  · rw [if_neg hbf]
    by_cases hB : ((shuffled.length : Int) = 0)
    · rw [if_pos hB]
    · rw [if_neg hB]
      have hBpos : 0 < shuffled.length := by
        rcases Nat.eq_zero_or_pos shuffled.length with hz | hp
        · exact absurd (by exact_mod_cast hz) hB
        · exact hp
      have hBposI : (0 : Int) < (shuffled.length : Int) := by exact_mod_cast hBpos
      have hmod0 : 0 ≤ limit.fmod (shuffled.length : Int) :=
        Int.fmod_nonneg' limit hBposI
      have hmodlt : limit.fmod (shuffled.length : Int) < (shuffled.length : Int) :=
        Int.fmod_lt_of_pos limit hBposI
      have hmul := Int.fdiv_add_fmod limit (shuffled.length : Int)
      have hbase : limit.fdiv (shuffled.length : Int) < 0 := by
        by_contra hge
        push_neg at hge
        have hnn : 0 ≤ (shuffled.length : Int) * limit.fdiv (shuffled.length : Int) :=
          mul_nonneg (le_of_lt hBposI) hge
        omega
      have hne : shuffled ≠ [] := by
        intro hz
        rw [hz] at hBpos
        exact absurd hBpos (by decide)
      have hdg := draw_groups_neg_error draw (limit.fdiv (shuffled.length : Int))
        (limit.fmod (shuffled.length : Int)) hbase shuffled 0
        hne (by push_cast; omega)
      show ((draw_groups draw (limit.fdiv (shuffled.length : Int))
          (limit.fmod (shuffled.length : Int)) 0 shuffled) >>= fun pr =>
          if 0 < pr.2 then
            if (nodes.filter (fun n => decide (n ∉ pr.1))).isEmpty then Except.ok pr.1
            else (py_sample draw (nodes.filter (fun n => decide (n ∉ pr.1)))
                (min pr.2 ((nodes.filter (fun n => decide (n ∉ pr.1))).length : Int)))
              >>= fun fill => Except.ok (pr.1 ++ fill)
          else Except.ok pr.1) = _
      rw [hdg]
      rfl

theorem fetch_neg_limit_error (draw : Draw) (shuffled : Groups) (cache : List Node)
    (health : HealthMap) (filters : Filters) {L : Int} (hL : L < 0) :
    fetch_healthy_nodes draw shuffled cache health (some L) filters = .error () := by
  unfold fetch_healthy_nodes
  dsimp only
  have hlt : L < ((healthy_filtered cache health filters).length : Int) := by
    have h0 : (0 : Int) ≤ ((healthy_filtered cache health filters).length : Int) := by
      positivity
    omega
  rw [if_pos hlt]
  by_cases hf : filters.isEmpty
  · rw [if_pos hf]
    unfold py_sample
    rw [if_neg (by rintro ⟨h1, _⟩; omega)]
  · rw [if_neg hf]
    exact balanced_sample_neg_error draw _ filters shuffled hL

/-- C5 (amended): for every behaviour `pyint` of the built-in int parse,
a `/probe` request carrying a limit parameter is rejected with 400
("Invalid limit parameter") exactly when that parse raises on the
parameter; a parameter parsing as an integer `n` — negative integers
included — is accepted by the parse step and passed on as the limit.  A
negative parsed limit is therefore never rejected with 400; instead, for
every cache, health map, filter map and every draw and shuffle oracle,
the subsequent `fetch_healthy_nodes` call raises (modelled `.error ()`)
rather than returning a list. -/
theorem probe_limit_parse_spec (pyint : String → Option Int) (s : String) :
    ((probe_parse_limit_gen pyint (some s) = Except.error "Invalid limit parameter") ↔
      pyint s = none) ∧
    (∀ n : Int, pyint s = some n →
      probe_parse_limit_gen pyint (some s) = Except.ok (some n)) ∧
    (∀ n : Int, n < 0 →
      ∀ (draw : Draw) (shuffled : Groups) (cache : List Node)
        (health : HealthMap) (filters : Filters),
        fetch_healthy_nodes draw shuffled cache health (some n) filters = .error ()) := by
  refine ⟨?_, ?_, ?_⟩
  · cases hp : pyint s <;> simp [probe_parse_limit_gen, hp]
  · intro n hp
    simp [probe_parse_limit_gen, hp]
  · intro n hn draw shuffled cache health filters
    exact fetch_neg_limit_error draw shuffled cache health filters hn

/-- Witness for the amended C5 at the concrete parameter `"-1"`: the
parse step accepts it with value -1 (no 400), and the fetch at that
negative limit raises. -/
theorem probe_limit_parse_spec_witness :
    probe_parse_limit_gen py_int_ascii (some "-1") = Except.ok (some (-1)) ∧
    fetch_healthy_nodes take_draw [] [wn1] [("a.ring.nlnog.net", Health.healthy)]
      (some (-1)) [] = .error () := by
  have h := probe_limit_parse_spec py_int_ascii "-1"
  exact ⟨h.2.1 (-1) (by decide),
    h.2.2 (-1) (by decide) take_draw [] [wn1]
      [("a.ring.nlnog.net", Health.healthy)] []⟩

end NRE
